import Mathlib

/-!
# VoluSign firmware loop (`src/main.cpp`)

A shallow embedding of the request pipeline of `loop()`:

* the text handling (`String::trim`, `strtok`, `atoi`, the bounded `while`
  loop filling `values[7]`, the count check and the range check),
* the single-precision arithmetic that scales the inputs and the output,
* the `unsigned long` timing arithmetic,
* the text written to `Serial`.

Characters are Lean `Char`s, C strings are `List Char` (the bytes before the
terminating NUL), `int` is `Int` (32 bits, made explicit where it matters),
`unsigned long` is `Nat` reduced modulo `2 ^ 32`, and `float` is an exact model
of the finite numbers of IEEE-754 binary32 with round-to-nearest-even
(`Float32` below).
-/

namespace VoluSign

/-! ## C library and Arduino `String` primitives used by `loop()` -/

/-- The predicate `isspace` of the C locale: space, `\t`, `\n`, `\v`, `\f`, `\r`. -/
def isspace (c : Char) : Bool :=
  c.toNat == 32 || (9 ≤ c.toNat && c.toNat ≤ 13)

/-- The method `String::trim()`: `begin` advances over leading white space, `end`
retreats over trailing white space, the characters in between are kept. -/
def trim (s : List Char) : List Char :=
  (s.dropWhile isspace).rdropWhile isspace

/-- The view `String::c_str()` as a C string: the characters before the first NUL. -/
def c_str (s : List Char) : List Char :=
  s.takeWhile (fun c => c.toNat != 0)

/-- The delimiter test of `strtok(_, ",")`. -/
def isDelim (c : Char) : Bool := c == ','

/-- One call of `strtok(p, ",")`, the scanned pointer made explicit: `some s` is
the string to scan (the `str` argument on the first call, the saved pointer on
the calls with `nullptr`), `none` is a null saved pointer.  It returns the token
(`none` for a null result) and the new saved pointer.  Leading delimiters are
skipped; the token runs to the next delimiter, which is overwritten by NUL, and
the saved pointer is set just behind it, or to null at the end of the string. -/
def strtok (p : Option (List Char)) : Option (List Char) × Option (List Char) :=
  match p with
  | none => (none, none)
  | some s =>
    match s.dropWhile isDelim with
    | [] => (none, none)
    | c :: r =>
      match r.dropWhile (fun x => !isDelim x) with
      | [] => (some (c :: r.takeWhile (fun x => !isDelim x)), none)
      | _ :: rest => (some (c :: r.takeWhile (fun x => !isDelim x)), some rest)

/-- Largest value of `int` (32 bits). -/
def INT_MAX : Int := 2147483647

/-- Smallest value of `int` (32 bits). -/
def INT_MIN : Int := -2147483648

/-- The value of the longest run of decimal digits at the head of `s`, most
significant digit first, continuing the accumulator `acc`. -/
def digitRun : List Char → Nat → Nat
  | [], acc => acc
  | c :: cs, acc => if c.isDigit then digitRun cs (acc * 10 + (c.toNat - 48)) else acc

/-- The function `atoi`, that is `(int) strtol(s, NULL, 10)`: white space is
skipped, one optional sign is read, then the longest run of decimal digits is
converted; whatever follows is ignored, and no digits at all give `0`.  A value
that does not fit is clamped to `INT_MAX` or `INT_MIN`, as `strtol` does where
`long` is 32 bits wide. -/
def atoi (s : List Char) : Int :=
  match s.dropWhile isspace with
  | [] => 0
  | c :: r =>
    if c == '-' then max INT_MIN (-(digitRun r 0 : Int))
    else if c == '+' then min INT_MAX (digitRun r 0 : Int)
    else min INT_MAX (digitRun (c :: r) 0 : Int)

/-! ## The decoding part of `loop()` -/

/-- The loop `while (token != nullptr && count < 7)`: `room` is `7 - count`,
`values` holds the `count` entries written so far, `token` is the current token
and `saved` the saved pointer of `strtok`. -/
def whileLoop : Nat → Option (List Char) → Option (List Char) → List Int → List Int
  | 0, _, _, values => values
  | _ + 1, none, _, values => values
  | room + 1, some token, saved, values =>
    whileLoop room (strtok saved).1 (strtok saved).2 (values ++ [atoi token])

/-- The tokenising block of `loop()`: the first `strtok` on the C string of the
(trimmed) input and the `while` loop; the result is `values[0 .. count-1]`. -/
def parseValues (str : List Char) : List Int :=
  whileLoop 7 (strtok (some str)).1 (strtok (some str)).2 []

/-- The range test `values[i] < -128 || values[i] > 127` of the `for` loop. -/
def outOfRange (x : Int) : Bool := decide (x < -128) || decide (x > 127)

/-- The two ways a request is rejected before the engine runs. -/
inductive DecodeError
  | WrongCount
  | OutOfRange
  deriving DecidableEq

instance : DecidableEq (Except DecodeError (List Int))
  | .ok a, .ok b => decidable_of_iff (a = b) (by simp)
  | .error a, .error b => decidable_of_iff (a = b) (by simp)
  | .ok _, .error _ => isFalse (by simp)
  | .error _, .ok _ => isFalse (by simp)

/-- The checks of `loop()` on the string handed to `strtok`: tokenise and convert,
fail with `WrongCount` unless `count == 7`, then fail with `OutOfRange` if the
`for` loop meets a value outside `[-128, 127]`. -/
def decodeTokens (str : List Char) : Except DecodeError (List Int) :=
  if (parseValues str).length ≠ 7 then .error .WrongCount
  else if (parseValues str).any outOfRange then .error .OutOfRange
  else .ok (parseValues str)

/-- The decoding of one received line as `loop()` performs it: `trim()`, then
`c_str()`, then `decodeTokens`. -/
def decode (user_input : List Char) : Except DecodeError (List Int) :=
  decodeTokens (c_str (trim user_input))

/-! ## Single precision arithmetic

A finite `float` is a whole number of units of `2 ^ (-149)`, the spacing of the
subnormal numbers of binary32.  Every operation computes the exact result as a
quotient of naturals and rounds it once, to nearest, ties to even, keeping 24
significant bits; a result of magnitude `2 ^ 128` or more is an overflow.  The
sign of zero is not represented; nothing in `loop()` depends on it. -/

/-- The quotient `n / d` rounded to the nearest natural, ties to the even one. -/
def roundNearestEven (n d : Nat) : Nat :=
  if 2 * (n % d) < d then n / d
  else if d < 2 * (n % d) then n / d + 1
  else if (n / d) % 2 = 0 then n / d
  else n / d + 1

/-- The loop counting the binary digits of `n`; the first argument bounds the
number of iterations. -/
def bitLengthLoop : Nat → Nat → Nat
  | 0, _ => 0
  | fuel + 1, n => if n = 0 then 0 else bitLengthLoop fuel (n / 2) + 1

/-- The number of binary digits of `n` (`0` for `0`). -/
def bitLength (n : Nat) : Nat := bitLengthLoop n n

/-- The quotient `n / d`, counted in units of the smallest subnormal, rounded to
`prec` significant bits: below `2 ^ prec` the spacing is one unit, from there on
the `bitLength (n / d) - prec` lowest bits are rounded away. -/
def roundGrid (prec n d : Nat) : Nat :=
  roundNearestEven n (d * 2 ^ (bitLength (n / d) - prec)) * 2 ^ (bitLength (n / d) - prec)

/-- A finite binary32 number, `units * 2 ^ (-149)`. -/
structure Float32 where
  units : Int
  deriving DecidableEq

/-- The rational number a `Float32` stands for. -/
def Float32.toRat (x : Float32) : ℚ := x.units / 2 ^ 149

/-- A `float` as it is computed: `none` is any value that is not a finite number
(an infinity or a NaN). -/
abbrev F32 := Option Float32

/-- Rounding of `± n / d` units to binary32; `none` on overflow. -/
def roundF32 (neg : Bool) (n d : Nat) : F32 :=
  if roundGrid 24 n d < 2 ^ 277 then
    some ⟨if neg then -(roundGrid 24 n d : Int) else (roundGrid 24 n d : Int)⟩
  else none

/-- The product `a * b` of two finite `float`s. -/
def fmul (a b : Float32) : F32 :=
  roundF32 (decide (a.units * b.units < 0)) (a.units * b.units).natAbs (2 ^ 149)

/-- The quotient `a / b` of two finite `float`s; a zero divisor gives an infinity
or a NaN. -/
def fdiv (a b : Float32) : F32 :=
  if b.units = 0 then none
  else roundF32 (decide (a.units * b.units < 0)) (a.units.natAbs * 2 ^ 149) b.units.natAbs

/-- The sum `a + b` of two finite `float`s. -/
def fadd (a b : Float32) : F32 :=
  roundF32 (decide (a.units + b.units < 0)) (a.units + b.units).natAbs 1

/-- The conversion of an `int` to `float` (it cannot overflow). -/
def Float32.ofInt (n : Int) : Float32 :=
  ⟨if n < 0 then -(roundGrid 24 (n.natAbs * 2 ^ 149) 1 : Int)
    else (roundGrid 24 (n.natAbs * 2 ^ 149) 1 : Int)⟩

/-- The `float` initialised from the positive decimal literal `p / q`: the literal
is a `double` (53 bits, units of `2 ^ (-1074)`), which is then converted to
`float`.  Meant for literals within the range of `float`. -/
def floatLiteral (p q : Nat) : Float32 :=
  ⟨roundGrid 24 (roundGrid 53 (p * 2 ^ 1074) q) (2 ^ 925)⟩

/-- The conversion `static_cast<int8_t>` of a finite `float`: the fractional part
is discarded (`Int.tdiv` rounds toward zero); the result is undefined (`none`)
when the truncated value is not an `int8_t`. -/
def toInt8 (x : Float32) : Option Int :=
  if -128 ≤ Int.tdiv x.units (2 ^ 149) ∧ Int.tdiv x.units (2 ^ 149) ≤ 127 then
    some (Int.tdiv x.units (2 ^ 149))
  else none

/-! ## Quantization parameters -/

/-- `const float input_scale = 0.007831485942006111;` -/
def input_scale : Float32 := floatLiteral 7831485942006111 (10 ^ 18)

/-- `const int input_zero_point = -1;` -/
def input_zero_point : Int := -1

/-- `const float output_scale = 0.017527734860777855;` -/
def output_scale : Float32 := floatLiteral 17527734860777855 (10 ^ 18)

/-- `const int output_zero_point = 31;` -/
def output_zero_point : Int := 31

/-- The expression `(values[i] - input_zero_point) * input_scale`: the difference
is taken on `int`, converted to `float` and multiplied in single precision. -/
def scaled_input (x : Int) : F32 :=
  fmul (Float32.ofInt (x - input_zero_point)) input_scale

/-- The expression `(dequantized_output / output_scale) + output_zero_point` in
single precision.  A quotient that is not finite stays so after the addition. -/
def scaled_output (y : F32) : F32 :=
  y.bind fun v => (fdiv v output_scale).bind fun q => fadd q (Float32.ofInt output_zero_point)

/-- The value of `quantized_output`: `scaled_output` through
`static_cast<int8_t>`; `none` where the conversion is undefined. -/
def quantized_output (y : F32) : Option Int :=
  (scaled_output y).bind toInt8

/-! ## Timing and printing -/

/-- Subtraction on `unsigned long` (32 bits): the difference modulo `2 ^ 32`. -/
def elapsed (after before : Nat) : Nat :=
  (((after : Int) - (before : Int)) % 2 ^ 32).toNat

/-- The loop of `Print::printNumber` in base 10: the digits of `n` are pushed in
front of `buf`, least significant first, until the quotient is zero.  The first
argument bounds the number of iterations. -/
def printNumberLoop : Nat → Nat → List Char → List Char
  | 0, _, buf => buf
  | fuel + 1, n, buf =>
    if n / 10 = 0 then Char.ofNat (n % 10 + 48) :: buf
    else printNumberLoop fuel (n / 10) (Char.ofNat (n % 10 + 48) :: buf)

/-- The text `Serial.print` writes for an `unsigned long`. -/
def printNumber (n : Nat) : List Char :=
  printNumberLoop (n + 1) n []

/-- The text `Serial.print` writes for an `int` or an `int8_t`: a minus sign for a
negative value, then the magnitude. -/
def printInt (n : Int) : List Char :=
  if n < 0 then '-' :: printNumber n.natAbs else printNumber n.natAbs

/-- The text of `Serial.println(s)`: `s` and the line ending. -/
def println (s : String) : String := s ++ "\r\n"

/-! ## One request -/

/-- The status an engine call reports. -/
inductive TfLiteStatus
  | kTfLiteOk
  | kTfLiteError
  deriving DecidableEq

/-- What one iteration of `loop()` leaves behind: the text written to `Serial`
and the contents of the input tensor `input->data.f`. -/
structure Outcome where
  serial : String
  data : Nat → F32

/-- The loop `for (int i = 0; i < 7; i++)`: `todo` is `7 - i`.  The result is
`false` with the tensor as far as it was written when a value fails the range
test (the early `return`), else `true` with all slots written. -/
def forLoop : Nat → Nat → List Int → (Nat → F32) → Bool × (Nat → F32)
  | 0, _, _, data => (true, data)
  | todo + 1, i, values, data =>
    if outOfRange (values.getD i 0) then (false, data)
    else forLoop todo (i + 1) values (Function.update data i (scaled_input (values.getD i 0)))

/-- The timing line of a successful request. -/
def timingLine (t0 t1 t2 : Nat) : String :=
  "Printing time = " ++ String.mk (printNumber (elapsed t1 t0))
    ++ " us.  Inference time = " ++ String.mk (printNumber (elapsed t2 t1)) ++ println " us."

/-- The part of `loop()` from the engine call on: `r` is what `Invoke` gave on
the loaded tensor `data1`, the status and the value it left in
`output->data.f[0]`.  The result is `none` only where the conversion to `int8_t`
is undefined. -/
def report (t0 t1 t2 : Nat) (r : TfLiteStatus × F32) (data1 : Nat → F32) : Option Outcome :=
  match r with
  | (.kTfLiteError, _) =>
    some ⟨println "Processing..." ++ println "Model inference failed.", data1⟩
  | (.kTfLiteOk, y) =>
    (quantized_output y).map fun q =>
      ⟨println "Processing..." ++ "Quantized Output: " ++ println (String.mk (printInt q))
        ++ timingLine t0 t1 t2, data1⟩

/-- One iteration of `loop()` with input pending (`chars_avail > 0`).
`user_input` is the line returned by `readStringUntil`, `t0 t1 t2` are the three
readings of `micros()`, `Invoke` is the engine: from the input tensor it gives
the status and the value left in `output->data.f[0]`; `data` is the input tensor
before the request. -/
def loop (user_input : List Char) (t0 t1 t2 : Nat)
    (Invoke : (Nat → F32) → TfLiteStatus × F32) (data : Nat → F32) : Option Outcome :=
  if (parseValues (c_str (trim user_input))).length ≠ 7 then
    some ⟨println "Error: Enter 7 integers.", data⟩
  else
    match forLoop 7 0 (parseValues (c_str (trim user_input))) data with
    | (false, data1) =>
      some ⟨println "Processing..."
        ++ println "Error: Input values must be in the range [-128, 127].", data1⟩
    | (true, data1) => report t0 t1 t2 (Invoke data1) data1

/-! ## Vocabulary of the properties

The notions the statements below are written with, taken from the wording of
the properties rather than from the code: the comma-separated tokens and fields
of a line, rendered lines, well-formed integers, the loaded tensor, the
rounding bound. -/

/-- The comma-separated tokens of a line: its non-empty fields between commas. -/
def tokens (s : List Char) : List (List Char) :=
  (s.splitOn ',').filter fun f => !f.isEmpty

/-- The tokens that remain behind a saved pointer of `strtok`. -/
def tokensFrom : Option (List Char) → List (List Char)
  | none => []
  | some s => tokens s

/-- The characters `0` to `9`. -/
def IsDigitChar (c : Char) : Prop := ∃ d, d < 10 ∧ c = Char.ofNat (d + 48)

/-- The line made of the base-10 renderings of `v` joined by commas. -/
def renderLine (v : List Int) : List Char :=
  [','].intercalate (v.map printInt)

/-- The comma-separated tokens of a received line as `loop()` sees them: the
tokens of the trimmed line, read as a C string. -/
def lineTokens (user_input : List Char) : List (List Char) :=
  tokens (c_str (trim user_input))

/-- The input tensor after the seven slots were loaded from `v`. -/
def loaded (v : List Int) (data : Nat → F32) : Nat → F32 :=
  fun k => if k < 7 then scaled_input (v.getD k 0) else data k

/-- A well-formed base-10 integer: an optional sign, then one digit or more and
nothing else. -/
def isWellFormedInt (t : List Char) : Bool :=
  match t with
  | [] => false
  | c :: r =>
    if c == '-' || c == '+' then !r.isEmpty && r.all Char.isDigit
    else (c :: r).all Char.isDigit

/-- The token has a digit where `atoi` starts to read the number: behind the
leading white space and one optional sign. -/
def startsWithNumber (t : List Char) : Bool :=
  match t.dropWhile isspace with
  | [] => false
  | c :: r =>
    if c == '-' || c == '+' then
      match r with
      | [] => false
      | d :: _ => d.isDigit
    else c.isDigit

/-- The number a run of decimal digits denotes, most significant digit first. -/
def decimalValue (ds : List Char) : Nat :=
  Nat.ofDigits 10 ((ds.map fun c => c.toNat - 48).reverse)

/-- A bound on the rounding error of a single-precision operation with exact
result `e`, half a unit in the last place: `2 ^ (-150)` among the subnormal
numbers, and at most `|e| / 2 ^ 24` above them. -/
def halfUlp (e : ℚ) : ℚ := max (1 / 2 ^ 150) (|e| / 2 ^ 24)

/-- The line with its empty fields removed: the non-empty fields between commas,
joined by single commas again. -/
def removeEmptyFields (s : List Char) : List Char :=
  [','].intercalate ((s.splitOn ',').filter fun f => !f.isEmpty)

/-! ## The rounding of the arithmetic model

The digit count is exact, the rounded quotient is within half a unit of the
last place of the exact one, and small integers convert exactly. -/

theorem bitLengthLoop_zero (fuel : Nat) : bitLengthLoop fuel 0 = 0 := by
  cases fuel <;> rfl

theorem bitLengthLoop_spec (fuel : Nat) :
    ∀ n, n ≤ fuel →
      n < 2 ^ bitLengthLoop fuel n ∧ (0 < n → 2 ^ (bitLengthLoop fuel n - 1) ≤ n) := by
  induction fuel with
  | zero =>
    intro n hn
    have : n = 0 := by omega
    subst this
    exact ⟨by simp [bitLengthLoop], fun h => absurd h (lt_irrefl 0)⟩
  | succ fuel ih =>
    intro n hn
    rcases Nat.eq_zero_or_pos n with h0 | hpos
    · subst h0
      exact ⟨by simp [bitLengthLoop], fun h => absurd h (lt_irrefl 0)⟩
    · have hne : n ≠ 0 := by omega
      obtain ⟨h1, h2⟩ := ih (n / 2) (by omega)
      rw [bitLengthLoop, if_neg hne, Nat.add_sub_cancel]
      constructor
      · rw [pow_succ]
        omega
      · intro _
        rcases Nat.eq_zero_or_pos (n / 2) with hz | hp
        · rw [hz, bitLengthLoop_zero]
          simpa using hpos
        · have h3 := h2 hp
          have hb : 0 < bitLengthLoop fuel (n / 2) := by
            rcases Nat.eq_zero_or_pos (bitLengthLoop fuel (n / 2)) with hb0 | hb0
            · rw [hb0] at h1
              simp at h1
              omega
            · exact hb0
          have hpow : 2 ^ bitLengthLoop fuel (n / 2)
              = 2 * 2 ^ (bitLengthLoop fuel (n / 2) - 1) := by
            rw [← pow_succ']
            congr 1
            omega
          rw [hpow]
          omega

/-- The digit count is exact: `2 ^ (bitLength n - 1) ≤ n < 2 ^ bitLength n`. -/
theorem bitLength_spec (n : Nat) :
    n < 2 ^ bitLength n ∧ (0 < n → 2 ^ (bitLength n - 1) ≤ n) :=
  bitLengthLoop_spec n n (le_refl n)

/-- The rounded quotient is within half a unit of the exact quotient. -/
theorem roundNearestEven_spec (n d : Nat) (hd : 0 < d) :
    2 * n ≤ 2 * (roundNearestEven n d * d) + d ∧ 2 * (roundNearestEven n d * d) ≤ 2 * n + d := by
  have hdm := Nat.div_add_mod n d
  have hr := Nat.mod_lt n hd
  have hmul : d * (n / d) = n / d * d := Nat.mul_comm _ _
  unfold roundNearestEven
  split
  · omega
  · split
    · rw [Nat.add_mul]
      omega
    · split
      · omega
      · rw [Nat.add_mul]
        omega

/-- An exact quotient is not changed by the rounding. -/
theorem roundNearestEven_of_dvd (n d : Nat) (hd : 0 < d) (h : d ∣ n) :
    roundNearestEven n d * d = n := by
  have hmod : n % d = 0 := Nat.mod_eq_zero_of_dvd h
  unfold roundNearestEven
  rw [hmod, if_pos (by omega)]
  exact Nat.div_mul_cancel h

/-- The rounding to `prec` bits is off by at most half the spacing `2 ^ s` at the
exact quotient, and the spacing is one unit or at most `2 ^ (1 - prec)` times
the quotient. -/
theorem roundGrid_spec (prec n d : Nat) (hp : 0 < prec) (hd : 0 < d) :
    |(roundGrid prec n d : ℚ) - (n : ℚ) / d| ≤ 2 ^ (bitLength (n / d) - prec) / 2
      ∧ (bitLength (n / d) - prec = 0
          ∨ (2 : ℚ) ^ (bitLength (n / d) - prec) * 2 ^ (prec - 1) ≤ (n : ℚ) / d) := by
  unfold roundGrid
  generalize hs : bitLength (n / d) - prec = s
  have hd' : 0 < d * 2 ^ s := Nat.mul_pos hd (by positivity)
  obtain ⟨h1, h2⟩ := roundNearestEven_spec n (d * 2 ^ s) hd'
  have hdq : (0 : ℚ) < d := by exact_mod_cast hd
  have hpq : (0 : ℚ) < 2 ^ s := by positivity
  have h1q : (2 : ℚ) * n ≤ 2 * (roundNearestEven n (d * 2 ^ s) * (d * 2 ^ s)) + d * 2 ^ s := by
    exact_mod_cast h1
  have h2q : (2 : ℚ) * (roundNearestEven n (d * 2 ^ s) * (d * 2 ^ s)) ≤ 2 * n + d * 2 ^ s := by
    exact_mod_cast h2
  constructor
  · push_cast
    rw [abs_le]
    constructor
    · rw [le_sub_iff_add_le, ← sub_eq_neg_add, sub_le_iff_le_add, div_le_iff₀ hdq]
      nlinarith
    · rw [sub_le_iff_le_add, ← sub_le_iff_le_add', le_div_iff₀ hdq]
      nlinarith
  · rcases Nat.eq_zero_or_pos s with h0 | hpos
    · exact Or.inl h0
    · right
      have hbl : prec < bitLength (n / d) := by omega
      have hq0 : 0 < n / d := by
        rcases Nat.eq_zero_or_pos (n / d) with hz | hz
        · rw [hz] at hbl
          have : bitLength 0 = 0 := bitLengthLoop_zero 0
          omega
        · exact hz
      have hlow := (bitLength_spec (n / d)).2 hq0
      have hexp : s + (prec - 1) ≤ bitLength (n / d) - 1 := by omega
      have hle : 2 ^ (s + (prec - 1)) ≤ n / d :=
        le_trans (Nat.pow_le_pow_right (by decide) hexp) hlow
      have hle2 : (2 ^ (s + (prec - 1)) : ℕ) * d ≤ n :=
        (Nat.le_div_iff_mul_le hd).1 hle
      rw [← pow_add, le_div_iff₀ hdq]
      exact_mod_cast hle2

theorem signed_natAbs (p : Int) :
    (if p < 0 then (-1 : ℚ) else 1) * (p.natAbs : ℚ) = p := by
  rw [Nat.cast_natAbs, Int.cast_abs]
  split
  · rename_i h
    rw [abs_of_neg (by exact_mod_cast h)]
    ring
  · rename_i h
    rw [abs_of_nonneg (by exact_mod_cast (not_lt.1 h))]
    ring

/-- A rounded result is within `halfUlp` of the exact value `± (n / d) * 2 ^ (-149)`. -/
theorem roundF32_spec (neg : Bool) (n d : Nat) (hd : 0 < d) (r : Float32)
    (h : roundF32 neg n d = some r) :
    |r.toRat - (if neg then (-1 : ℚ) else 1) * ((n : ℚ) / d) / 2 ^ 149|
      ≤ halfUlp (((n : ℚ) / d) / 2 ^ 149) := by
  obtain ⟨herr, hsp⟩ := roundGrid_spec 24 n d (by decide) hd
  have hx0 : (0 : ℚ) ≤ (n : ℚ) / d := by positivity
  have hunits : (r.units : ℚ) = (if neg then (-1 : ℚ) else 1) * (roundGrid 24 n d : ℚ) := by
    unfold roundF32 at h
    split at h
    · simp only [Option.some.injEq] at h
      rw [← h]
      cases neg <;> simp
    · exact Option.noConfusion h
  have hdist : |r.toRat - (if neg then (-1 : ℚ) else 1) * ((n : ℚ) / d) / 2 ^ 149|
      = |(roundGrid 24 n d : ℚ) - (n : ℚ) / d| / 2 ^ 149 := by
    unfold Float32.toRat
    rw [hunits, ← sub_div, ← mul_sub, abs_div, abs_mul,
      abs_of_pos (show (0 : ℚ) < 2 ^ 149 by positivity)]
    cases neg <;> simp
  rw [hdist]
  unfold halfUlp
  rw [abs_of_nonneg (by positivity : (0 : ℚ) ≤ (n : ℚ) / d / 2 ^ 149)]
  rcases hsp with h0 | hbig
  · rw [h0] at herr
    apply le_max_of_le_left
    rw [div_le_iff₀ (by positivity)]
    calc |(roundGrid 24 n d : ℚ) - (n : ℚ) / d| ≤ 2 ^ 0 / 2 := herr
      _ = 1 / 2 ^ 150 * 2 ^ 149 := by norm_num
  · apply le_max_of_le_right
    rw [div_le_iff₀ (by positivity)]
    have e : (n : ℚ) / d / 2 ^ 149 / 2 ^ 24 * 2 ^ 149 = (n : ℚ) / d / 2 ^ 24 := by
      field_simp
      ring
    rw [e, le_div_iff₀ (by positivity)]
    calc |(roundGrid 24 n d : ℚ) - (n : ℚ) / d| * 2 ^ 24
        ≤ 2 ^ (bitLength (n / d) - 24) / 2 * 2 ^ 24 :=
          mul_le_mul_of_nonneg_right herr (by positivity)
      _ = 2 ^ (bitLength (n / d) - 24) * 2 ^ (24 - 1) := by norm_num; ring
      _ ≤ (n : ℚ) / d := hbig

theorem quot_of_signed (sg A Bn a b : ℚ) (hb : b ≠ 0) (hBn : 0 < Bn)
    (hB2 : Bn * Bn = b * b) (hs : sg * (A * Bn) = a * b) : sg * A / Bn = a / b := by
  rw [div_eq_div_iff hBn.ne' hb]
  have h1 : (sg * A * b) * Bn = (a * Bn) * Bn := by
    calc (sg * A * b) * Bn = (sg * (A * Bn)) * b := by ring
      _ = a * b * b := by rw [hs]
      _ = a * (b * b) := by ring
      _ = a * (Bn * Bn) := by rw [hB2]
      _ = (a * Bn) * Bn := by ring
  exact mul_right_cancel₀ hBn.ne' h1

theorem abs_signed_div (p : Prop) [Decidable p] (x K : ℚ) (hx : 0 ≤ x) (hK : 0 < K) :
    |(if p then (-1 : ℚ) else 1) * x / K| = x / K := by
  rw [abs_div, abs_of_pos hK]
  congr 1
  split
  · rw [neg_one_mul, abs_neg, abs_of_nonneg hx]
  · rw [one_mul, abs_of_nonneg hx]

theorem halfUlp_abs (e : ℚ) : halfUlp |e| = halfUlp e := by
  unfold halfUlp
  rw [abs_abs]

theorem exact_mul (S N a b K : ℚ) (h : S * N = a * b) :
    S * (N / K) / K = a / K * (b / K) := by
  have e : S * (N / K) / K = S * N / K / K := by ring
  rw [e, h]
  ring

theorem exact_div (S A B a b K : ℚ) (hK : K ≠ 0) (hB : B ≠ 0) (hb : b ≠ 0)
    (hq : S * A / B = a / b) : S * (A * K / B) / K = a / K / (b / K) := by
  have e1 : S * (A * K / B) / K = S * A / B := by
    field_simp
    ring
  have e2 : a / K / (b / K) = a / b := by field_simp
  rw [e1, e2, hq]

theorem exact_add (S N a b K : ℚ) (h : S * N = a + b) : S * N / K = a / K + b / K := by
  rw [h]
  ring

/-- Single-precision multiplication is the exact product rounded once. -/
theorem fmul_spec (a b r : Float32) (h : fmul a b = some r) :
    |r.toRat - a.toRat * b.toRat| ≤ halfUlp (a.toRat * b.toRat) := by
  have hs := roundF32_spec _ _ _ (by positivity) r h
  have hsgn := signed_natAbs (a.units * b.units)
  have hcast : ((2 ^ 149 : ℕ) : ℚ) = 2 ^ 149 := by norm_cast
  have hKpos : (0 : ℚ) < 2 ^ 149 := by positivity
  have hN : (0 : ℚ) ≤ ((a.units * b.units).natAbs : ℚ) / 2 ^ 149 :=
    div_nonneg (Nat.cast_nonneg _) hKpos.le
  rw [hcast] at hs
  simp only [decide_eq_true_eq] at hs
  rw [Int.cast_mul] at hsgn
  have hexact : (if a.units * b.units < 0 then (-1 : ℚ) else 1)
      * (((a.units * b.units).natAbs : ℚ) / 2 ^ 149) / 2 ^ 149 = a.toRat * b.toRat :=
    exact_mul _ _ _ _ _ hsgn
  have hmag : (((a.units * b.units).natAbs : ℚ) / 2 ^ 149) / 2 ^ 149
      = |a.toRat * b.toRat| := by
    rw [← hexact, abs_signed_div _ _ _ hN hKpos]
  rw [hmag, halfUlp_abs, hexact] at hs
  exact hs

/-- Single-precision division is the exact quotient rounded once. -/
theorem fdiv_spec (a b r : Float32) (h : fdiv a b = some r) :
    b.units ≠ 0 ∧ |r.toRat - a.toRat / b.toRat| ≤ halfUlp (a.toRat / b.toRat) := by
  unfold fdiv at h
  split at h
  · exact Option.noConfusion h
  · rename_i hb
    refine ⟨hb, ?_⟩
    have hbpos : 0 < b.units.natAbs := Int.natAbs_pos.2 hb
    have hs := roundF32_spec _ _ _ hbpos r h
    have hbq : (b.units : ℚ) ≠ 0 := by exact_mod_cast hb
    have hbabs : (0 : ℚ) < (b.units.natAbs : ℚ) := by exact_mod_cast hbpos
    have hKpos : (0 : ℚ) < 2 ^ 149 := by positivity
    have hcast : ((a.units.natAbs * 2 ^ 149 : ℕ) : ℚ) = (a.units.natAbs : ℚ) * 2 ^ 149 := by
      rw [Nat.cast_mul, Nat.cast_pow, Nat.cast_ofNat]
    have hN : (0 : ℚ) ≤ (a.units.natAbs : ℚ) * 2 ^ 149 / (b.units.natAbs : ℚ) :=
      div_nonneg (mul_nonneg (Nat.cast_nonneg _) hKpos.le) hbabs.le
    rw [hcast] at hs
    simp only [decide_eq_true_eq] at hs
    have hsgn := signed_natAbs (a.units * b.units)
    have habs : ((a.units * b.units).natAbs : ℚ) = (a.units.natAbs : ℚ) * b.units.natAbs := by
      rw [Int.natAbs_mul, Nat.cast_mul]
    rw [habs, Int.cast_mul] at hsgn
    have hb2 : (b.units.natAbs : ℚ) * b.units.natAbs = (b.units : ℚ) * b.units := by
      rw [Nat.cast_natAbs, Int.cast_abs]
      exact abs_mul_abs_self _
    have hq := quot_of_signed _ _ _ _ _ hbq hbabs hb2 hsgn
    have hexact : (if a.units * b.units < 0 then (-1 : ℚ) else 1)
        * ((a.units.natAbs : ℚ) * 2 ^ 149 / (b.units.natAbs : ℚ)) / 2 ^ 149
        = a.toRat / b.toRat :=
      exact_div _ _ _ _ _ _ hKpos.ne' hbabs.ne' hbq hq
    have hmag : ((a.units.natAbs : ℚ) * 2 ^ 149 / (b.units.natAbs : ℚ)) / 2 ^ 149
        = |a.toRat / b.toRat| := by
      rw [← hexact, abs_signed_div _ _ _ hN hKpos]
    rw [hmag, halfUlp_abs, hexact] at hs
    exact hs

/-- Single-precision addition is the exact sum rounded once. -/
theorem fadd_spec (a b r : Float32) (h : fadd a b = some r) :
    |r.toRat - (a.toRat + b.toRat)| ≤ halfUlp (a.toRat + b.toRat) := by
  have hs := roundF32_spec _ _ _ Nat.one_pos r h
  have hsgn := signed_natAbs (a.units + b.units)
  have hKpos : (0 : ℚ) < 2 ^ 149 := by positivity
  have hN : (0 : ℚ) ≤ ((a.units + b.units).natAbs : ℚ) := Nat.cast_nonneg _
  rw [Nat.cast_one, div_one] at hs
  simp only [decide_eq_true_eq] at hs
  rw [Int.cast_add] at hsgn
  have hexact : (if a.units + b.units < 0 then (-1 : ℚ) else 1)
      * ((a.units + b.units).natAbs : ℚ) / 2 ^ 149 = a.toRat + b.toRat :=
    exact_add _ _ _ _ _ hsgn
  have hmag : ((a.units + b.units).natAbs : ℚ) / 2 ^ 149 = |a.toRat + b.toRat| := by
    rw [← hexact, abs_signed_div _ _ _ hN hKpos]
  rw [hmag, halfUlp_abs, hexact] at hs
  exact hs

theorem roundGrid_exact (k : Nat) (hk : k < 2 ^ 24) :
    roundGrid 24 (k * 2 ^ 149) 1 = k * 2 ^ 149 := by
  unfold roundGrid
  rw [Nat.div_one]
  generalize hs : bitLength (k * 2 ^ 149) - 24 = s
  have hs149 : s ≤ 149 := by
    rcases Nat.eq_zero_or_pos (k * 2 ^ 149) with h0 | hpos
    · rw [h0] at hs
      have : bitLength 0 = 0 := bitLengthLoop_zero 0
      omega
    · have hlow := (bitLength_spec (k * 2 ^ 149)).2 hpos
      have hupper : k * 2 ^ 149 < 2 ^ 173 := by
        have : (2 : Nat) ^ 173 = 2 ^ 24 * 2 ^ 149 := by rw [← pow_add]
        rw [this]
        exact Nat.mul_lt_mul_of_pos_right hk (by positivity)
      have hlt : 2 ^ (bitLength (k * 2 ^ 149) - 1) < 2 ^ 173 := lt_of_le_of_lt hlow hupper
      have := (Nat.pow_lt_pow_iff_right (by decide : 1 < 2)).1 hlt
      omega
  have hdvd : 1 * 2 ^ s ∣ k * 2 ^ 149 := by
    rw [Nat.one_mul]
    exact Dvd.dvd.mul_left (pow_dvd_pow 2 hs149) k
  have := roundNearestEven_of_dvd (k * 2 ^ 149) (1 * 2 ^ s) (by positivity) hdvd
  rw [Nat.one_mul] at this
  rw [Nat.one_mul]
  exact this

/-- An `int` of magnitude below `2 ^ 24` converts to `float` exactly. -/
theorem ofInt_exact (n : Int) (h : n.natAbs < 2 ^ 24) : (Float32.ofInt n).toRat = n := by
  have hexact := roundGrid_exact n.natAbs h
  have hsgn := signed_natAbs n
  have hK : (0 : ℚ) < 2 ^ 149 := by positivity
  unfold Float32.toRat Float32.ofInt
  rw [hexact, div_eq_iff hK.ne']
  split
  · rename_i hneg
    rw [if_pos hneg] at hsgn
    rw [← hsgn]
    rw [Int.cast_neg, Int.cast_natCast, Nat.cast_mul, Nat.cast_pow, Nat.cast_ofNat]
    ring
  · rename_i hpos
    rw [if_neg hpos] at hsgn
    rw [← hsgn]
    rw [Int.cast_natCast, Nat.cast_mul, Nat.cast_pow, Nat.cast_ofNat]
    ring

/-! ## The tokeniser and the tokens of a line -/

theorem splitOn_eq (s : List Char) : s.splitOn ',' = s.splitOnP isDelim := rfl

theorem tokens_nil : tokens [] = [] := by
  simp [tokens, List.splitOn_nil]

theorem tokens_cons_delim (c : Char) (s : List Char) (h : isDelim c = true) :
    tokens (c :: s) = tokens s := by
  simp [tokens, splitOn_eq, List.splitOnP_cons, h]

theorem tokens_dropWhile (s : List Char) : tokens (s.dropWhile isDelim) = tokens s := by
  induction s with
  | nil => rfl
  | cons c s ih =>
    by_cases h : isDelim c = true
    · rw [List.dropWhile_cons_of_pos h, ih, tokens_cons_delim c s h]
    · rw [List.dropWhile_cons_of_neg h]

theorem takeWhile_not_delim (r : List Char) :
    ∀ x ∈ r.takeWhile (fun x => !isDelim x), ¬ isDelim x = true := by
  intro x hx
  have := List.mem_takeWhile_imp hx
  simpa using this

theorem tokens_cons_of_end (c : Char) (r : List Char) (hc : ¬ isDelim c = true)
    (hr : r.dropWhile (fun x => !isDelim x) = []) :
    tokens (c :: r) = [c :: r.takeWhile (fun x => !isDelim x)] := by
  have hrt : r.takeWhile (fun x => !isDelim x) = r := by
    have := List.takeWhile_append_dropWhile (fun x => !isDelim x) r
    rw [hr, List.append_nil] at this
    exact this
  have hall : ∀ x ∈ c :: r, ¬ isDelim x = true := by
    intro x hx
    rcases List.mem_cons.1 hx with rfl | hx
    · exact hc
    · rw [← hrt] at hx
      exact takeWhile_not_delim r x hx
  rw [hrt]
  simp [tokens, splitOn_eq, List.splitOnP_eq_single isDelim _ hall]

theorem tokens_cons_of_delim (c d : Char) (r rest : List Char) (hc : ¬ isDelim c = true)
    (hr : r.dropWhile (fun x => !isDelim x) = d :: rest) :
    tokens (c :: r) = (c :: r.takeWhile (fun x => !isDelim x)) :: tokens rest := by
  have hd : isDelim d = true := by
    have := List.head_dropWhile_not (fun x => !isDelim x) r (by rw [hr]; simp)
    simpa [hr] using this
  have hsplit : c :: r = (c :: r.takeWhile (fun x => !isDelim x)) ++ d :: rest := by
    rw [List.cons_append, ← hr, List.takeWhile_append_dropWhile]
  have hall : ∀ x ∈ c :: r.takeWhile (fun x => !isDelim x), ¬ isDelim x = true := by
    intro x hx
    rcases List.mem_cons.1 hx with rfl | hx
    · exact hc
    · exact takeWhile_not_delim r x hx
  have := List.splitOnP_first isDelim _ hall d hd rest
  rw [tokens, splitOn_eq]
  conv_lhs => rw [hsplit]
  rw [this]
  simp [tokens, splitOn_eq]

theorem strtok_spec (p : Option (List Char)) :
    tokensFrom p =
      match (strtok p).1 with
      | none => []
      | some t => t :: tokensFrom (strtok p).2 := by
  cases p with
  | none => rfl
  | some s =>
    show tokens s = _
    rw [← tokens_dropWhile s]
    unfold strtok
    simp only
    cases hs : s.dropWhile isDelim with
    | nil => simp [tokens_nil]
    | cons c r =>
      have hc : ¬ isDelim c = true := by
        have := List.head_dropWhile_not isDelim s (by rw [hs]; simp)
        simpa [hs] using this
      cases hr : r.dropWhile (fun x => !isDelim x) with
      | nil => simp [tokens_cons_of_end c r hc hr, tokensFrom, hr]
      | cons d rest => simp [tokens_cons_of_delim c d r rest hc hr, tokensFrom, hr]

theorem whileLoop_eq (room : Nat) :
    ∀ (p : Option (List Char)) (values : List Int),
      whileLoop room (strtok p).1 (strtok p).2 values
        = values ++ ((tokensFrom p).take room).map atoi := by
  induction room with
  | zero => intro p values; simp [whileLoop]
  | succ room ih =>
    intro p values
    have hspec := strtok_spec p
    cases ht : (strtok p).1 with
    | none =>
      rw [ht] at hspec
      simp [whileLoop, hspec]
    | some t =>
      rw [ht] at hspec
      simp only at hspec
      rw [whileLoop, ih, hspec]
      simp

theorem parseValues_eq (s : List Char) :
    parseValues s = ((tokens s).take 7).map atoi := by
  have := whileLoop_eq 7 (some s) []
  simpa [parseValues, tokensFrom] using this

/-! ## Decimal rendering and `atoi` -/

theorem digitChar_facts (d : Nat) (hd : d < 10) :
    (Char.ofNat (d + 48)).isDigit = true ∧ (Char.ofNat (d + 48)).toNat - 48 = d
      ∧ isspace (Char.ofNat (d + 48)) = false ∧ isDelim (Char.ofNat (d + 48)) = false
      ∧ ((Char.ofNat (d + 48)).toNat != 0) = true
      ∧ (Char.ofNat (d + 48) == '-') = false ∧ (Char.ofNat (d + 48) == '+') = false := by
  interval_cases d <;> decide

theorem digitRun_cons_digit (d : Nat) (hd : d < 10) (cs : List Char) (acc : Nat) :
    digitRun (Char.ofNat (d + 48) :: cs) acc = digitRun cs (acc * 10 + d) := by
  obtain ⟨h1, h2, -⟩ := digitChar_facts d hd
  simp [digitRun, h1, h2]

theorem printNumberLoop_spec (fuel : Nat) :
    ∀ (n : Nat) (buf : List Char), n < 10 ^ fuel → 0 < fuel →
      ∃ ds : List Char, printNumberLoop fuel n buf = ds ++ buf ∧ ds ≠ []
        ∧ (∀ c ∈ ds, IsDigitChar c)
        ∧ ∀ (acc : Nat) (tail : List Char),
            digitRun (ds ++ tail) acc = digitRun tail (acc * 10 ^ ds.length + n) := by
  induction fuel with
  | zero => intro n buf _ h; exact absurd h (Nat.lt_irrefl 0)
  | succ fuel ih =>
    intro n buf hn _
    have hmod : n % 10 < 10 := Nat.mod_lt _ (by decide)
    by_cases h10 : n / 10 = 0
    · refine ⟨[Char.ofNat (n % 10 + 48)], by simp [printNumberLoop, h10], by simp, ?_, ?_⟩
      · intro c hc
        rw [List.mem_singleton] at hc
        exact ⟨n % 10, hmod, hc⟩
      · intro acc tail
        have hlt : n % 10 = n := by omega
        rw [List.singleton_append, digitRun_cons_digit _ hmod, hlt]
        simp
    · have hfuel : 0 < fuel := by
        rcases Nat.eq_zero_or_pos fuel with h0 | h0
        · subst h0
          simp at hn
          omega
        · exact h0
      have hdiv : n / 10 < 10 ^ fuel := by
        rw [Nat.div_lt_iff_lt_mul (by decide)]
        rw [pow_succ] at hn
        exact hn
      obtain ⟨ds, hds, hne, hdig, hval⟩ := ih (n / 10) (Char.ofNat (n % 10 + 48) :: buf) hdiv hfuel
      refine ⟨ds ++ [Char.ofNat (n % 10 + 48)], ?_, by simp, ?_, ?_⟩
      · simp [printNumberLoop, h10, hds]
      · intro c hc
        rcases List.mem_append.1 hc with hc | hc
        · exact hdig c hc
        · rw [List.mem_singleton] at hc
          exact ⟨n % 10, hmod, hc⟩
      · intro acc tail
        rw [List.append_assoc, hval, List.singleton_append, digitRun_cons_digit _ hmod]
        congr 1
        rw [List.length_append, List.length_singleton, pow_succ]
        have := Nat.div_add_mod n 10
        nlinarith [this]

theorem printNumber_spec (n : Nat) :
    ∃ ds : List Char, printNumber n = ds ∧ ds ≠ [] ∧ (∀ c ∈ ds, IsDigitChar c)
      ∧ digitRun ds 0 = n := by
  obtain ⟨ds, hds, hne, hdig, hval⟩ :=
    printNumberLoop_spec (n + 1) n [] (Nat.lt_pow_self (by decide) _ |>.trans_le
      (Nat.pow_le_pow_right (by decide) (Nat.le_succ n))) (Nat.succ_pos n)
  refine ⟨ds, by simpa [printNumber] using hds, hne, hdig, ?_⟩
  have := hval 0 []
  simpa [digitRun] using this

theorem digitChar_clean (c : Char) (h : IsDigitChar c) :
    isspace c = false ∧ isDelim c = false ∧ (c.toNat != 0) = true := by
  obtain ⟨d, hd, rfl⟩ := h
  obtain ⟨-, -, h3, h4, h5, -⟩ := digitChar_facts d hd
  exact ⟨h3, h4, h5⟩

/-- A rendered integer is not empty and holds no white space, comma or NUL. -/
theorem printInt_clean (x : Int) :
    printInt x ≠ [] ∧ ∀ c ∈ printInt x,
      isspace c = false ∧ isDelim c = false ∧ (c.toNat != 0) = true := by
  obtain ⟨ds, hds, hne, hdig, -⟩ := printNumber_spec x.natAbs
  unfold printInt
  split
  · refine ⟨by simp, ?_⟩
    intro c hc
    rcases List.mem_cons.1 hc with rfl | hc
    · decide
    · rw [hds] at hc
      exact digitChar_clean c (hdig c hc)
  · rw [hds]
    exact ⟨hne, fun c hc => digitChar_clean c (hdig c hc)⟩

/-- Reading back a rendered `int` with `atoi` gives the `int`. -/
theorem atoi_printInt (x : Int) (hlo : INT_MIN ≤ x) (hhi : x ≤ INT_MAX) :
    atoi (printInt x) = x := by
  obtain ⟨ds, hds, hne, hdig, hval⟩ := printNumber_spec x.natAbs
  unfold INT_MIN at hlo
  unfold INT_MAX at hhi
  unfold printInt
  split
  · rename_i hneg
    have hd : ('-' :: printNumber x.natAbs).dropWhile isspace = '-' :: printNumber x.natAbs := by
      rw [List.dropWhile_cons_of_neg (by decide)]
    rw [atoi, hd]
    simp only [beq_self_eq_true, if_true, hds, hval, INT_MIN]
    omega
  · rename_i hpos
    rw [hds]
    cases ds with
    | nil => exact absurd rfl hne
    | cons c r =>
      obtain ⟨d, hd, rfl⟩ := hdig c (List.mem_cons_self _ _)
      obtain ⟨-, -, h3, -, -, h6, h7⟩ := digitChar_facts d hd
      have hdw : (Char.ofNat (d + 48) :: r).dropWhile isspace = Char.ofNat (d + 48) :: r := by
        rw [List.dropWhile_cons_of_neg (by simp [h3])]
      rw [atoi, hdw]
      simp only [h6, h7, Bool.false_eq_true, if_false, hval, INT_MAX]
      omega

/-! ## Lines of rendered integers -/

theorem mem_intercalate (sep : List Char) (ls : List (List Char)) (c : Char)
    (h : c ∈ sep.intercalate ls) : c ∈ sep ∨ ∃ l ∈ ls, c ∈ l := by
  induction ls with
  | nil => simp [List.intercalate] at h
  | cons a t ih =>
    cases t with
    | nil =>
      simp [List.intercalate] at h
      exact Or.inr ⟨a, by simp, h⟩
    | cons b t =>
      have hrec : sep.intercalate (a :: b :: t) = a ++ sep ++ sep.intercalate (b :: t) := by
        simp [List.intercalate, List.intersperse]
      rw [hrec] at h
      rcases List.mem_append.1 h with h | h
      · rcases List.mem_append.1 h with h | h
        · exact Or.inr ⟨a, by simp, h⟩
        · exact Or.inl h
      · rcases ih h with h | ⟨l, hl, hc⟩
        · exact Or.inl h
        · exact Or.inr ⟨l, List.mem_cons_of_mem _ hl, hc⟩

theorem dropWhile_of_none (p : Char → Bool) (l : List Char) (h : ∀ x ∈ l, p x = false) :
    l.dropWhile p = l := by
  cases l with
  | nil => rfl
  | cons a t =>
    have := h a (List.mem_cons_self _ _)
    rw [List.dropWhile_cons_of_neg (by simp [this])]

theorem trim_of_clean (l : List Char) (h : ∀ x ∈ l, isspace x = false) : trim l = l := by
  unfold trim
  rw [dropWhile_of_none _ _ h, List.rdropWhile,
    dropWhile_of_none _ _ (fun x hx => h x (List.mem_reverse.1 hx)), List.reverse_reverse]

theorem c_str_of_clean (l : List Char) (h : ∀ x ∈ l, (x.toNat != 0) = true) : c_str l = l := by
  unfold c_str
  rw [List.takeWhile_eq_self_iff]
  exact h

theorem renderLine_clean (v : List Int) :
    ∀ c ∈ renderLine v, isspace c = false ∧ (c.toNat != 0) = true := by
  intro c hc
  rcases mem_intercalate _ _ c hc with h | ⟨l, hl, hcl⟩
  · rw [List.mem_singleton] at h
    subst h
    decide
  · obtain ⟨x, -, rfl⟩ := List.mem_map.1 hl
    obtain ⟨h1, -, h3⟩ := (printInt_clean x).2 c hcl
    exact ⟨h1, h3⟩

theorem tokens_renderLine (v : List Int) (hv : v ≠ []) :
    tokens (renderLine v) = v.map printInt := by
  have hsplit : (renderLine v).splitOn ',' = v.map printInt := by
    apply List.splitOn_intercalate
    · intro l hl hmem
      obtain ⟨x, -, rfl⟩ := List.mem_map.1 hl
      have := ((printInt_clean x).2 _ hmem).2.1
      simp [isDelim] at this
    · simpa using hv
  rw [tokens, hsplit, List.filter_eq_self]
  intro l hl
  obtain ⟨x, -, rfl⟩ := List.mem_map.1 hl
  have := (printInt_clean x).1
  cases hp : printInt x with
  | nil => exact absurd hp this
  | cons a t => rfl

theorem map_atoi_printInt (v : List Int) (h : ∀ x ∈ v, INT_MIN ≤ x ∧ x ≤ INT_MAX) :
    (v.map printInt).map atoi = v := by
  induction v with
  | nil => rfl
  | cons a t ih =>
    have ha := h a (List.mem_cons_self _ _)
    simp only [List.map_cons, atoi_printInt a ha.1 ha.2]
    rw [ih (fun x hx => h x (List.mem_cons_of_mem _ hx))]

/-! ## Trimming does not add tokens -/

theorem tokens_length_cons (c : Char) (s : List Char) :
    (tokens s).length ≤ (tokens (c :: s)).length := by
  rw [tokens, tokens, splitOn_eq, splitOn_eq, List.splitOnP_cons]
  cases hL : s.splitOnP isDelim with
  | nil => exact absurd hL (List.splitOnP_ne_nil isDelim s)
  | cons h t =>
    by_cases hc : isDelim c = true
    · rw [if_pos hc]
      simp
    · rw [if_neg hc]
      simp only [List.modifyHead_cons, List.filter_cons, List.isEmpty_cons,
        Bool.not_false, if_true, List.length_cons]
      split <;> simp

theorem tokens_length_final (a s : List Char) :
    (tokens s).length ≤ (tokens (a ++ s)).length := by
  induction a with
  | nil => exact le_refl _
  | cons c a ih => exact le_trans ih (tokens_length_cons c (a ++ s))

theorem tokens_length_initial (p : List Char) :
    ∀ q : List Char,
      (tokens p).length ≤ (tokens (p ++ q)).length
        ∧ ((p.splitOnP isDelim).tail.filter fun f => !f.isEmpty).length
            ≤ (((p ++ q).splitOnP isDelim).tail.filter fun f => !f.isEmpty).length := by
  induction p with
  | nil =>
    intro q
    simp [tokens_nil, List.splitOnP_nil]
  | cons c p ih =>
    intro q
    obtain ⟨ih1, ih2⟩ := ih q
    rw [tokens, tokens, splitOn_eq, splitOn_eq] at *
    rw [List.cons_append, List.splitOnP_cons, List.splitOnP_cons]
    by_cases hc : isDelim c = true
    · rw [if_pos hc, if_pos hc]
      simp only [List.tail_cons, List.filter_cons, List.isEmpty_nil, Bool.not_true,
        Bool.false_eq_true, if_false]
      exact ⟨ih1, ih1⟩
    · rw [if_neg hc, if_neg hc]
      cases hL : p.splitOnP isDelim with
      | nil => exact absurd hL (List.splitOnP_ne_nil isDelim p)
      | cons h t =>
        cases hM : (p ++ q).splitOnP isDelim with
        | nil => exact absurd hM (List.splitOnP_ne_nil isDelim (p ++ q))
        | cons h2 t2 =>
          rw [hL, hM] at ih2
          simp only [List.tail_cons] at ih2
          simp only [List.modifyHead_cons, List.tail_cons, List.filter_cons, List.isEmpty_cons,
            Bool.not_false, if_true, List.length_cons]
          omega

/-- Trimming the line and cutting it at the first NUL does not add tokens. -/
theorem lineTokens_length_le (line : List Char) :
    (lineTokens line).length ≤ (tokens line).length := by
  unfold lineTokens
  obtain ⟨q1, h1⟩ := List.takeWhile_prefix (fun c : Char => c.toNat != 0) (l := trim line)
  obtain ⟨q2, h2⟩ := List.rdropWhile_prefix isspace (l := line.dropWhile isspace)
  obtain ⟨a, h3⟩ := List.dropWhile_suffix isspace (l := line)
  have e1 : (tokens (c_str (trim line))).length ≤ (tokens (trim line)).length := by
    have := (tokens_length_initial (c_str (trim line)) q1).1
    unfold c_str at this ⊢
    rwa [h1] at this
  have e2 : (tokens (trim line)).length ≤ (tokens (line.dropWhile isspace)).length := by
    have := (tokens_length_initial (trim line) q2).1
    unfold trim at this ⊢
    rwa [h2] at this
  have e3 : (tokens (line.dropWhile isspace)).length ≤ (tokens line).length := by
    have := tokens_length_final a (line.dropWhile isspace)
    rwa [h3] at this
  omega

/-! ## The count check and the range check -/

theorem parseValues_line (line : List Char) :
    parseValues (c_str (trim line)) = ((lineTokens line).take 7).map atoi :=
  parseValues_eq _

theorem parseValues_length (line : List Char) :
    (parseValues (c_str (trim line))).length = min 7 (lineTokens line).length := by
  rw [parseValues_line, List.length_map, List.length_take]

theorem decode_eq (line : List Char) :
    decode line =
      if (lineTokens line).length < 7 then .error .WrongCount
      else if (((lineTokens line).take 7).map atoi).any outOfRange then .error .OutOfRange
      else .ok (((lineTokens line).take 7).map atoi) := by
  unfold decode decodeTokens
  rw [parseValues_length, ← parseValues_line]
  by_cases h : (lineTokens line).length < 7
  · rw [if_pos h, if_pos (by omega)]
  · rw [if_neg h, if_neg (by omega)]

/-! ## The loading loop and the request as a whole -/

theorem forLoop_ok (todo : Nat) :
    ∀ (i : Nat) (values : List Int) (data : Nat → F32),
      (∀ j, i ≤ j → j < i + todo → outOfRange (values.getD j 0) = false) →
      forLoop todo i values data
        = (true, fun k => if i ≤ k ∧ k < i + todo then scaled_input (values.getD k 0)
            else data k) := by
  induction todo with
  | zero =>
    intro i values data _
    simp only [forLoop, Prod.mk.injEq, true_and]
    funext k
    rw [if_neg (by omega)]
  | succ todo ih =>
    intro i values data h
    have hi := h i (le_refl i) (by omega)
    rw [forLoop, if_neg (by rw [hi]; exact Bool.false_ne_true), ih (i + 1) values _ (fun j h1 h2 => h j (by omega) (by omega))]
    simp only [Prod.mk.injEq, true_and]
    funext k
    by_cases hk : k = i
    · subst hk
      rw [if_neg (by omega), if_pos (by omega), Function.update_same]
    · rw [Function.update_noteq hk]
      by_cases hk2 : i + 1 ≤ k ∧ k < i + 1 + todo
      · rw [if_pos hk2, if_pos (by omega)]
      · rw [if_neg hk2, if_neg (by omega)]

theorem forLoop_fail (todo : Nat) :
    ∀ (i : Nat) (values : List Int) (data : Nat → F32),
      (∃ j, i ≤ j ∧ j < i + todo ∧ outOfRange (values.getD j 0) = true) →
      (forLoop todo i values data).1 = false := by
  induction todo with
  | zero =>
    intro i values data h
    obtain ⟨j, h1, h2, -⟩ := h
    omega
  | succ todo ih =>
    intro i values data h
    rw [forLoop]
    by_cases hi : outOfRange (values.getD i 0) = true
    · rw [if_pos hi]
    · rw [if_neg hi]
      apply ih
      obtain ⟨j, h1, h2, h3⟩ := h
      refine ⟨j, ?_, by omega, h3⟩
      rcases Nat.eq_or_lt_of_le h1 with h4 | h4
      · subst h4
        exact absurd h3 hi
      · exact h4

theorem decode_ok_iff (line : List Char) (v : List Int) :
    decode line = .ok v ↔
      parseValues (c_str (trim line)) = v ∧ v.length = 7 ∧ v.any outOfRange = false := by
  unfold decode decodeTokens
  constructor
  · intro h
    split at h
    · simp at h
    · split at h
      · simp at h
      · rename_i h1 h2
        simp only [Except.ok.injEq] at h
        subst h
        exact ⟨rfl, by omega, by simpa using h2⟩
  · rintro ⟨h1, h2, h3⟩
    rw [h1, if_neg (by omega), if_neg (by simp [h3])]

theorem wrongCount_iff_length (line : List Char) :
    decode line = .error .WrongCount ↔ (parseValues (c_str (trim line))).length ≠ 7 := by
  unfold decode decodeTokens
  constructor
  · intro h
    split at h
    · assumption
    · split at h <;> simp at h
  · intro h
    rw [if_pos h]

theorem outOfRange_iff_any (line : List Char) :
    decode line = .error .OutOfRange ↔
      (parseValues (c_str (trim line))).length = 7
        ∧ (parseValues (c_str (trim line))).any outOfRange = true := by
  unfold decode decodeTokens
  constructor
  · intro h
    split at h
    · simp at h
    · split at h
      · rename_i h1 h2
        exact ⟨by omega, h2⟩
      · simp at h
  · rintro ⟨h1, h2⟩
    rw [if_neg (by omega), if_pos h2]

/-- A request with a wrong token count writes the count message only and leaves
the tensor alone. -/
theorem loop_wrongCount (line : List Char) (t0 t1 t2 : Nat)
    (Invoke : (Nat → F32) → TfLiteStatus × F32) (data : Nat → F32)
    (h : decode line = .error .WrongCount) :
    loop line t0 t1 t2 Invoke data = some ⟨println "Error: Enter 7 integers.", data⟩ := by
  rw [wrongCount_iff_length] at h
  rw [loop, if_pos h]

/-- A request with a value out of range writes the progress line, then the range
message. -/
theorem loop_outOfRange (line : List Char) (t0 t1 t2 : Nat)
    (Invoke : (Nat → F32) → TfLiteStatus × F32) (data : Nat → F32)
    (h : decode line = .error .OutOfRange) :
    ∃ data1, loop line t0 t1 t2 Invoke data
      = some ⟨println "Processing..."
          ++ println "Error: Input values must be in the range [-128, 127].", data1⟩ := by
  rw [outOfRange_iff_any] at h
  obtain ⟨hlen, hany⟩ := h
  rw [List.any_eq_true] at hany
  obtain ⟨x, hx, hbad⟩ := hany
  obtain ⟨j, hj, rfl⟩ := List.getElem_of_mem hx
  have hfail := forLoop_fail 7 0 (parseValues (c_str (trim line))) data
    ⟨j, Nat.zero_le j, by omega, by rw [List.getD_eq_getElem _ _ hj]; exact hbad⟩
  rw [loop, if_neg (by omega)]
  cases hf : forLoop 7 0 (parseValues (c_str (trim line))) data with
  | mk b data1 =>
    rw [hf] at hfail
    simp only at hfail
    subst hfail
    exact ⟨data1, rfl⟩

/-- A decoded request loads the seven slots, runs the engine on the loaded tensor
and reports from what the engine gave. -/
theorem loop_ok (line : List Char) (v : List Int) (t0 t1 t2 : Nat)
    (Invoke : (Nat → F32) → TfLiteStatus × F32) (data : Nat → F32)
    (h : decode line = .ok v) :
    loop line t0 t1 t2 Invoke data
      = report t0 t1 t2 (Invoke (loaded v data)) (loaded v data) := by
  rw [decode_ok_iff] at h
  obtain ⟨hparse, hlen, hany⟩ := h
  rw [List.any_eq_false] at hany
  have hall : ∀ j, 0 ≤ j → j < 0 + 7 → outOfRange (v.getD j 0) = false := by
    intro j _ hj
    have hj' : j < v.length := by omega
    rw [List.getD_eq_getElem _ _ hj']
    simpa using hany _ (List.getElem_mem hj')
  have hfor := forLoop_ok 7 0 v data hall
  have hfun : (fun k => if 0 ≤ k ∧ k < 0 + 7 then scaled_input (v.getD k 0) else data k)
      = loaded v data := by
    funext k
    simp [loaded]
  rw [hfun] at hfor
  rw [loop, hparse, if_neg (by omega), hfor]

theorem report_data (t0 t1 t2 : Nat) (r : TfLiteStatus × F32) (data1 : Nat → F32)
    (out : Outcome) (h : report t0 t1 t2 r data1 = some out) : out.data = data1 := by
  obtain ⟨st, y⟩ := r
  cases st with
  | kTfLiteError =>
    simp only [report, Option.some.injEq] at h
    rw [← h]
  | kTfLiteOk =>
    simp only [report, Option.map_eq_some'] at h
    obtain ⟨q, -, hq⟩ := h
    rw [← hq]

/-! ## The constants and the scaled inputs -/

theorem input_scale_units : input_scale = ⟨4204497 * 2 ^ 120⟩ := by decide!

theorem output_scale_units : output_scale = ⟨9410131 * 2 ^ 120⟩ := by decide!

theorem toRat_mk_mul (m : Int) (k : Nat) (hk : k ≤ 149) :
    Float32.toRat ⟨m * 2 ^ k⟩ = m / 2 ^ (149 - k) := by
  unfold Float32.toRat
  have h2 : (2 : ℚ) ^ 149 = 2 ^ k * 2 ^ (149 - k) := by
    rw [← pow_add]
    congr 1
    omega
  push_cast
  rw [h2]
  field_simp
  ring

theorem scaled_input_units (x : Fin 255) :
    (scaled_input ((x.val : Int) - 128)).map
        (fun r => decide (-(2 : Int) ^ 149 ≤ r.units ∧ r.units ≤ 2 ^ 149)) = some true := by
  revert x
  decide!

/-- For every `x` in `[-128, 126]` the scaled input lies in `[-1, 1]`. -/
theorem scaled_input_bounds (x : Int) (hlo : -128 ≤ x) (hhi : x ≤ 126) :
    ∃ r : Float32, scaled_input x = some r ∧ -1 ≤ r.toRat ∧ r.toRat ≤ 1 := by
  have h := scaled_input_units ⟨(x + 128).toNat, by omega⟩
  have hx : (((x + 128).toNat : Nat) : Int) - 128 = x := by omega
  rw [show ((⟨(x + 128).toNat, by omega⟩ : Fin 255).val : Int) - 128 = x from hx] at h
  cases hs : scaled_input x with
  | none =>
    rw [hs, Option.map_none'] at h
    exact Option.noConfusion h
  | some r =>
    rw [hs, Option.map_some', Option.some.injEq, decide_eq_true_eq] at h
    have h1 : -(2 : ℚ) ^ 149 ≤ (r.units : ℚ) := by exact_mod_cast h.1
    have h2 : (r.units : ℚ) ≤ (2 : ℚ) ^ 149 := by exact_mod_cast h.2
    refine ⟨r, rfl, ?_, ?_⟩
    · unfold Float32.toRat
      rw [le_div_iff₀ (by positivity)]
      linarith
    · unfold Float32.toRat
      rw [div_le_iff₀ (by positivity)]
      linarith

theorem scaled_input_127 : scaled_input 127 = some ⟨4204497 * 2 ^ 127⟩ := by decide!

theorem scaled_input_some (x : Int) (hlo : -128 ≤ x) (hhi : x ≤ 127) :
    ∃ r : Float32, scaled_input x = some r := by
  rcases lt_or_ge x 127 with h | h
  · obtain ⟨r, hr, -⟩ := scaled_input_bounds x hlo (by omega)
    exact ⟨r, hr⟩
  · have : x = 127 := by omega
    subst this
    exact ⟨_, scaled_input_127⟩

/-! ## Timing -/

theorem elapsed_cast (after before : Nat) :
    (elapsed after before : Int) = ((after : Int) - (before : Int)) % 2 ^ 32 := by
  unfold elapsed
  exact Int.toNat_of_nonneg (Int.emod_nonneg _ (by norm_num))

theorem elapsed_exact (after before : Nat) (ha : after < 2 ^ 32) (h : before ≤ after) :
    elapsed after before = after - before := by
  have hc := elapsed_cast after before
  have hlt : ((after : Int) - (before : Int)) % 2 ^ 32 = (after : Int) - (before : Int) := by
    apply Int.emod_eq_of_lt
    · omega
    · have : ((2 : Int) ^ 32) = 4294967296 := by norm_num
      have h2 : (2 : Nat) ^ 32 = 4294967296 := by norm_num
      omega
  rw [hlt] at hc
  omega

/-! ## The output conversion -/

theorem tdiv_bounds (a : Int) (b : Int) (hb : 0 < b) :
    |((Int.tdiv a b : Int) : ℚ)| ≤ |(a : ℚ) / b| ∧ |(a : ℚ) / b| < |((Int.tdiv a b : Int) : ℚ)| + 1
      ∧ 0 ≤ ((Int.tdiv a b : Int) : ℚ) * ((a : ℚ) / b) := by
  have hbq : (0 : ℚ) < b := by exact_mod_cast hb
  have hdm := Int.tdiv_add_tmod a b
  rcases le_or_lt 0 a with ha | ha
  · have hq0 : 0 ≤ Int.tdiv a b := Int.tdiv_nonneg ha hb.le
    have hr0 : 0 ≤ Int.tmod a b := Int.tmod_nonneg b ha
    have hr1 : Int.tmod a b < b := Int.tmod_lt_of_pos a hb
    have haq : (0 : ℚ) ≤ a := by exact_mod_cast ha
    have hqq : (0 : ℚ) ≤ (Int.tdiv a b : Int) := by exact_mod_cast hq0
    have e : (a : ℚ) = b * (Int.tdiv a b : Int) + (Int.tmod a b : Int) := by exact_mod_cast hdm.symm
    have hr0q : (0 : ℚ) ≤ (Int.tmod a b : Int) := by exact_mod_cast hr0
    have hr1q : ((Int.tmod a b : Int) : ℚ) < b := by exact_mod_cast hr1
    rw [abs_of_nonneg hqq, abs_of_nonneg (div_nonneg haq hbq.le)]
    refine ⟨?_, ?_, mul_nonneg hqq (div_nonneg haq hbq.le)⟩
    · rw [le_div_iff₀ hbq]
      nlinarith
    · rw [div_lt_iff₀ hbq]
      nlinarith
  · have hna : 0 ≤ -a := by omega
    have hneg : Int.tdiv a b = -Int.tdiv (-a) b := by
      rw [Int.neg_tdiv, neg_neg]
    have hq0 : 0 ≤ Int.tdiv (-a) b := Int.tdiv_nonneg hna hb.le
    have hdm2 := Int.tdiv_add_tmod (-a) b
    have hr0 : 0 ≤ Int.tmod (-a) b := Int.tmod_nonneg b hna
    have hr1 : Int.tmod (-a) b < b := Int.tmod_lt_of_pos (-a) hb
    have haq : (a : ℚ) < 0 := by exact_mod_cast ha
    have hqq : (0 : ℚ) ≤ (Int.tdiv (-a) b : Int) := by exact_mod_cast hq0
    have e : -(a : ℚ) = b * (Int.tdiv (-a) b : Int) + (Int.tmod (-a) b : Int) := by
      exact_mod_cast hdm2.symm
    have hr0q : (0 : ℚ) ≤ (Int.tmod (-a) b : Int) := by exact_mod_cast hr0
    have hr1q : ((Int.tmod (-a) b : Int) : ℚ) < b := by exact_mod_cast hr1
    have hdivneg : (a : ℚ) / b ≤ 0 := (div_neg_of_neg_of_pos haq hbq).le
    rw [hneg]
    push_cast
    rw [abs_neg, abs_of_nonneg hqq, abs_of_nonpos hdivneg]
    refine ⟨?_, ?_, ?_⟩
    · rw [← neg_div, le_div_iff₀ hbq]
      nlinarith
    · rw [← neg_div, div_lt_iff₀ hbq]
      nlinarith
    · have : -((Int.tdiv (-a) b : Int) : ℚ) * ((a : ℚ) / b)
          = ((Int.tdiv (-a) b : Int) : ℚ) * (-((a : ℚ) / b)) := by ring
      rw [this]
      exact mul_nonneg hqq (by linarith)

/-- The conversion to `int8_t` discards the fractional part: the result `q` is the
integer with `|q| ≤ |x| < |q| + 1` on the side of `x`, and it is an `int8_t`. -/
theorem toInt8_spec (x : Float32) (q : Int) (h : toInt8 x = some q) :
    -128 ≤ q ∧ q ≤ 127 ∧ |(q : ℚ)| ≤ |x.toRat| ∧ |x.toRat| < |(q : ℚ)| + 1
      ∧ 0 ≤ (q : ℚ) * x.toRat := by
  unfold toInt8 at h
  split at h
  · rename_i hr
    simp only [Option.some.injEq] at h
    subst h
    have hb := tdiv_bounds x.units (2 ^ 149) (by positivity)
    have hc : (((2 : Int) ^ 149 : Int) : ℚ) = 2 ^ 149 := by norm_cast
    rw [hc] at hb
    exact ⟨hr.1, hr.2, hb⟩
  · simp at h

/-- The conversion to `int8_t` is defined wherever the value lies strictly between
`-129` and `128`. -/
theorem toInt8_defined (x : Float32) (hlo : -129 < x.toRat) (hhi : x.toRat < 128) :
    ∃ q, toInt8 x = some q := by
  have hb := tdiv_bounds x.units (2 ^ 149) (by positivity)
  have hc : (((2 : Int) ^ 149 : Int) : ℚ) = 2 ^ 149 := by norm_cast
  rw [hc] at hb
  change |((Int.tdiv x.units (2 ^ 149) : Int) : ℚ)| ≤ |x.toRat|
    ∧ |x.toRat| < |((Int.tdiv x.units (2 ^ 149) : Int) : ℚ)| + 1
    ∧ 0 ≤ ((Int.tdiv x.units (2 ^ 149) : Int) : ℚ) * x.toRat at hb
  obtain ⟨h1, -, -⟩ := hb
  have habs : |x.toRat| < 129 := abs_lt.2 ⟨hlo, by linarith⟩
  have hq : |((Int.tdiv x.units (2 ^ 149) : Int) : ℚ)| < 129 := lt_of_le_of_lt h1 habs
  rw [abs_lt] at hq
  have hq1 : -129 < Int.tdiv x.units (2 ^ 149) := by exact_mod_cast hq.1
  have hq2 : Int.tdiv x.units (2 ^ 149) < 129 := by exact_mod_cast hq.2
  by_cases h128 : Int.tdiv x.units (2 ^ 149) = 128
  · exfalso
    have h1' := h1
    rw [h128] at h1'
    have hx : |x.toRat| < 128 ∨ x.toRat ≤ -128 := by
      rcases le_or_lt 0 x.toRat with h0 | h0
      · left
        rw [abs_of_nonneg h0]
        exact hhi
      · right
        rw [abs_of_neg h0] at h1'
        norm_num at h1'
        linarith
    rcases hx with hx | hx
    · norm_num at h1'
      linarith
    · have hb2 := tdiv_bounds x.units (2 ^ 149) (by positivity)
      rw [hc] at hb2
      change _ ∧ _ ∧ 0 ≤ ((Int.tdiv x.units (2 ^ 149) : Int) : ℚ) * x.toRat at hb2
      obtain ⟨-, -, h3⟩ := hb2
      rw [h128] at h3
      norm_num at h3
      linarith
  · refine ⟨Int.tdiv x.units (2 ^ 149), ?_⟩
    unfold toInt8
    rw [if_pos]
    constructor <;> omega

theorem scaled_output_half :
    scaled_output (some (floatLiteral 1 2)) = some ⟨15604441 * 2 ^ 131⟩ := by decide!

/-! ## What `atoi` makes of a token -/

theorem digitRun_of_head (tail : List Char) (acc : Nat)
    (h : ∀ c, tail.head? = some c → c.isDigit = false) : digitRun tail acc = acc := by
  cases tail with
  | nil => rfl
  | cons c cs =>
    have := h c rfl
    rw [digitRun, if_neg (by rw [this]; exact Bool.false_ne_true)]

theorem isDigit_toNat (c : Char) (h : c.isDigit = true) : 48 ≤ c.toNat ∧ c.toNat ≤ 57 := by
  unfold Char.isDigit at h
  simp only [Bool.and_eq_true, decide_eq_true_eq] at h
  have h1 : (48 : UInt32).toNat ≤ c.val.toNat := h.1
  have h2 : c.val.toNat ≤ (57 : UInt32).toNat := h.2
  exact ⟨h1, h2⟩

theorem isDigit_facts (c : Char) (h : c.isDigit = true) :
    isspace c = false ∧ (c == '-') = false ∧ (c == '+') = false := by
  obtain ⟨h1, h2⟩ := isDigit_toNat c h
  refine ⟨?_, ?_, ?_⟩
  · unfold isspace
    simp
    omega
  · rw [beq_eq_false_iff_ne]
    intro hc
    rw [hc] at h1
    revert h1
    decide
  · rw [beq_eq_false_iff_ne]
    intro hc
    rw [hc] at h1
    revert h1
    decide

theorem decimalValue_cons (c : Char) (cs : List Char) :
    decimalValue (c :: cs) = (c.toNat - 48) * 10 ^ cs.length + decimalValue cs := by
  unfold decimalValue
  rw [List.map_cons, List.reverse_cons, Nat.ofDigits_append, Nat.ofDigits_singleton,
    List.length_reverse, List.length_map]
  ring

/-- A run of digits is read as the number it denotes, wherever it stops. -/
theorem digitRun_digits (ds : List Char) (hds : ∀ c ∈ ds, c.isDigit = true) :
    ∀ (acc : Nat) (tail : List Char), (∀ c, tail.head? = some c → c.isDigit = false) →
      digitRun (ds ++ tail) acc = acc * 10 ^ ds.length + decimalValue ds := by
  induction ds with
  | nil =>
    intro acc tail h
    rw [List.nil_append, digitRun_of_head tail acc h]
    simp [decimalValue]
  | cons c cs ih =>
    intro acc tail h
    have hc := hds c (List.mem_cons_self _ _)
    rw [List.cons_append, digitRun, if_pos hc,
      ih (fun x hx => hds x (List.mem_cons_of_mem _ hx)) _ tail h, decimalValue_cons,
      List.length_cons, pow_succ]
    ring

theorem atoi_skip (ws rest : List Char) (hws : ∀ c ∈ ws, isspace c = true) :
    atoi (ws ++ rest) = atoi rest := by
  have h : (ws ++ rest).dropWhile isspace = rest.dropWhile isspace := by
    induction ws with
    | nil => rfl
    | cons w ws ih =>
      rw [List.cons_append, List.dropWhile_cons_of_pos (hws w (List.mem_cons_self _ _))]
      exact ih (fun c hc => hws c (List.mem_cons_of_mem _ hc))
  unfold atoi
  rw [h]

/-- What `atoi` returns for a token that has a number where `atoi` looks for it:
white space, an optional sign, one digit or more, then anything that does not
start with a digit. -/
theorem atoi_number (ws sign ds tail : List Char) (hws : ∀ c ∈ ws, isspace c = true)
    (hsign : sign = [] ∨ sign = ['-'] ∨ sign = ['+']) (hne : ds ≠ [])
    (hds : ∀ c ∈ ds, c.isDigit = true) (htail : ∀ c, tail.head? = some c → c.isDigit = false) :
    atoi (ws ++ (sign ++ (ds ++ tail)))
      = if sign = ['-'] then max INT_MIN (-(decimalValue ds : Int))
        else min INT_MAX (decimalValue ds : Int) := by
  have hrun : digitRun (ds ++ tail) 0 = decimalValue ds := by
    rw [digitRun_digits ds hds 0 tail htail]
    simp
  rw [atoi_skip ws _ hws]
  cases ds with
  | nil => exact absurd rfl hne
  | cons d ds' =>
    obtain ⟨hd1, hd2, hd3⟩ := isDigit_facts d (hds d (List.mem_cons_self _ _))
    rcases hsign with rfl | rfl | rfl
    · rw [List.nil_append, if_neg (by decide)]
      rw [List.cons_append] at hrun ⊢
      unfold atoi
      rw [List.dropWhile_cons_of_neg (by rw [hd1]; exact Bool.false_ne_true)]
      simp only [hd2, hd3, Bool.false_eq_true, if_false, hrun]
    · rw [if_pos rfl, List.singleton_append]
      unfold atoi
      rw [List.dropWhile_cons_of_neg (by decide)]
      simp only [beq_self_eq_true, if_true, hrun]
    · rw [if_neg (by decide), List.singleton_append]
      unfold atoi
      rw [List.dropWhile_cons_of_neg (by decide)]
      have hpm : ('+' == '-') = false := by decide
      simp only [hpm, Bool.false_eq_true, if_false, beq_self_eq_true, if_true, hrun]

/-- Every token either has no digit where the number should start, or is white
space, an optional sign, a run of one digit or more, and a rest that does not
start with a digit. -/
theorem token_shape (t : List Char) :
    startsWithNumber t = false
      ∨ ∃ ws sign ds tail : List Char, t = ws ++ (sign ++ (ds ++ tail))
          ∧ (∀ c ∈ ws, isspace c = true)
          ∧ (sign = [] ∨ sign = ['-'] ∨ sign = ['+'])
          ∧ ds ≠ [] ∧ (∀ c ∈ ds, c.isDigit = true)
          ∧ (∀ c, tail.head? = some c → c.isDigit = false) := by
  have hsplit : t = t.takeWhile isspace ++ t.dropWhile isspace :=
    (List.takeWhile_append_dropWhile isspace t).symm
  have hws : ∀ c ∈ t.takeWhile isspace, isspace c = true := fun c hc =>
    List.mem_takeWhile_imp hc
  have hrun : ∀ (d : Char) (r : List Char), d.isDigit = true →
      ∃ ds tail : List Char, d :: r = ds ++ tail ∧ ds ≠ [] ∧ (∀ c ∈ ds, c.isDigit = true)
        ∧ (∀ c, tail.head? = some c → c.isDigit = false) := by
    intro d r hd
    refine ⟨d :: r.takeWhile Char.isDigit, r.dropWhile Char.isDigit, ?_, by simp, ?_, ?_⟩
    · rw [List.cons_append, List.takeWhile_append_dropWhile]
    · intro c hc
      rcases List.mem_cons.1 hc with rfl | hc
      · exact hd
      · exact List.mem_takeWhile_imp hc
    · intro c hc
      cases hr : r.dropWhile Char.isDigit with
      | nil => rw [hr] at hc; simp at hc
      | cons a rest =>
        rw [hr] at hc
        simp only [List.head?_cons, Option.some.injEq] at hc
        subst hc
        have := List.head_dropWhile_not Char.isDigit r (by rw [hr]; simp)
        simpa [hr] using this
  unfold startsWithNumber
  cases hs : t.dropWhile isspace with
  | nil => exact Or.inl rfl
  | cons c r =>
    simp only
    by_cases hsgn : (c == '-' || c == '+') = true
    · rw [if_pos hsgn]
      cases r with
      | nil => exact Or.inl rfl
      | cons d r' =>
        simp only
        by_cases hd : d.isDigit = true
        · right
          obtain ⟨ds, tail, he, hne, hds, htail⟩ := hrun d r' hd
          refine ⟨t.takeWhile isspace, [c], ds, tail, ?_, hws, ?_, hne, hds, htail⟩
          · rw [← he, List.singleton_append, ← hs]
            exact hsplit
          · simp only [Bool.or_eq_true, beq_iff_eq] at hsgn
            rcases hsgn with rfl | rfl
            · exact Or.inr (Or.inl rfl)
            · exact Or.inr (Or.inr rfl)
        · left
          simpa using hd
    · rw [if_neg hsgn]
      by_cases hd : c.isDigit = true
      · right
        obtain ⟨ds, tail, he, hne, hds, htail⟩ := hrun c r hd
        refine ⟨t.takeWhile isspace, [], ds, tail, ?_, hws, Or.inl rfl, hne, hds, htail⟩
        rw [List.nil_append, ← he, ← hs]
        exact hsplit
      · left
        simpa using hd

/-- A token without a digit where the number should start is converted to `0`. -/
theorem atoi_of_no_digit (t : List Char) (h : startsWithNumber t = false) : atoi t = 0 := by
  unfold startsWithNumber at h
  unfold atoi
  cases hs : t.dropWhile isspace with
  | nil => rfl
  | cons c r =>
    rw [hs] at h
    simp only at h ⊢
    by_cases hm : c = '-'
    · subst hm
      rw [if_pos (by decide)] at h
      rw [if_pos (by decide), digitRun_of_head r 0 (by
        intro d hd
        cases r with
        | nil => simp at hd
        | cons e r' =>
          simp only [List.head?_cons, Option.some.injEq] at hd
          subst hd
          simpa using h)]
      decide
    · by_cases hp : c = '+'
      · subst hp
        rw [if_pos (by decide)] at h
        rw [if_neg (by decide), if_pos (by decide), digitRun_of_head r 0 (by
          intro d hd
          cases r with
          | nil => simp at hd
          | cons e r' =>
            simp only [List.head?_cons, Option.some.injEq] at hd
            subst hd
            simpa using h)]
        decide
      · rw [if_neg (by simp [hm, hp])] at h
        rw [if_neg (by simpa using hm), if_neg (by simpa using hp), digitRun,
          if_neg (by rw [h]; exact Bool.false_ne_true)]
        decide

/-! ## Empty fields -/

theorem removeEmptyFields_eq (s : List Char) :
    removeEmptyFields s = [','].intercalate (tokens s) := rfl

theorem splitOnP_mem (p : Char → Bool) (xs : List Char) :
    ∀ f ∈ xs.splitOnP p, ∀ c ∈ f, c ∈ xs ∧ p c = false := by
  induction xs with
  | nil =>
    intro f hf c hc
    rw [List.splitOnP_nil, List.mem_singleton] at hf
    subst hf
    exact absurd hc (List.not_mem_nil c)
  | cons x xs ih =>
    intro f hf c hc
    rw [List.splitOnP_cons] at hf
    by_cases hx : p x = true
    · rw [if_pos hx] at hf
      rcases List.mem_cons.1 hf with rfl | hf
      · exact absurd hc (List.not_mem_nil c)
      · obtain ⟨h1, h2⟩ := ih f hf c hc
        exact ⟨List.mem_cons_of_mem _ h1, h2⟩
    · rw [if_neg hx] at hf
      cases hL : xs.splitOnP p with
      | nil => exact absurd hL (List.splitOnP_ne_nil p xs)
      | cons h t =>
        rw [hL] at hf ih
        simp only [List.modifyHead_cons, List.mem_cons] at hf
        rcases hf with rfl | hf
        · rcases List.mem_cons.1 hc with rfl | hc
          · exact ⟨List.mem_cons_self _ _, by simpa using hx⟩
          · obtain ⟨h1, h2⟩ := ih h (List.mem_cons_self _ _) c hc
            exact ⟨List.mem_cons_of_mem _ h1, h2⟩
        · obtain ⟨h1, h2⟩ := ih f (List.mem_cons_of_mem _ hf) c hc
          exact ⟨List.mem_cons_of_mem _ h1, h2⟩

theorem tokens_mem (s : List Char) :
    ∀ t ∈ tokens s, t ≠ [] ∧ ∀ c ∈ t, c ∈ s ∧ isDelim c = false := by
  intro t ht
  rw [tokens, List.mem_filter] at ht
  obtain ⟨hmem, hne⟩ := ht
  refine ⟨?_, splitOnP_mem isDelim s t hmem⟩
  intro h
  rw [h] at hne
  simp at hne

theorem tokens_removeEmptyFields (s : List Char) :
    tokens (removeEmptyFields s) = tokens s := by
  rw [removeEmptyFields_eq]
  by_cases hnil : tokens s = []
  · rw [hnil]
    rfl
  · have hsplit : ([','].intercalate (tokens s)).splitOn ',' = tokens s := by
      apply List.splitOn_intercalate
      · intro l hl hmem
        have := ((tokens_mem s l hl).2 _ hmem).2
        simp [isDelim] at this
      · exact hnil
    rw [tokens, hsplit, List.filter_eq_self]
    intro l hl
    have := (tokens_mem s l hl).1
    cases l with
    | nil => exact absurd rfl this
    | cons a t => rfl

/-- The tokeniser never returns an empty token. -/
theorem strtok_ne_nil (p : Option (List Char)) (t : List Char) (h : (strtok p).1 = some t) :
    t ≠ [] := by
  have hspec := strtok_spec p
  rw [h] at hspec
  simp only at hspec
  have hmem : t ∈ tokensFrom p := by
    rw [hspec]
    exact List.mem_cons_self _ _
  cases p with
  | none => simp [tokensFrom] at hmem
  | some s => exact (tokens_mem s t hmem).1

theorem decodeTokens_removeEmptyFields (s : List Char) :
    decodeTokens (removeEmptyFields s) = decodeTokens s := by
  unfold decodeTokens
  rw [parseValues_eq, parseValues_eq, tokens_removeEmptyFields]

theorem removeEmptyFields_clean (s : List Char)
    (h : ∀ c ∈ s, isspace c = false ∧ (c.toNat != 0) = true) :
    ∀ c ∈ removeEmptyFields s, isspace c = false ∧ (c.toNat != 0) = true := by
  intro c hc
  rw [removeEmptyFields_eq] at hc
  rcases mem_intercalate _ _ c hc with hc | ⟨l, hl, hcl⟩
  · rw [List.mem_singleton] at hc
    subst hc
    decide
  · exact h c ((tokens_mem s l hl).2 c hcl).1

/-! # The claims -/

/-! ## C1: Well-formed lines decode to their integers -/

/-- Claim C1: a line made of the base-10 renderings of seven integers in
`[-128, 127]`, joined by commas, decodes successfully to exactly these integers,
in the order of the line; in particular `"1,2,3,4,5,6,7"` decodes to
`[1, 2, 3, 4, 5, 6, 7]`. -/
theorem decode_renderLine (v : List Int) (hlen : v.length = 7)
    (hrange : ∀ x ∈ v, -128 ≤ x ∧ x ≤ 127) :
    decode (renderLine v) = .ok v
      ∧ decode "1,2,3,4,5,6,7".toList = .ok [1, 2, 3, 4, 5, 6, 7] := by
  refine ⟨?_, by decide⟩
  have hne : v ≠ [] := by
    intro h
    rw [h] at hlen
    simp at hlen
  have hparse : parseValues (renderLine v) = v := by
    rw [parseValues_eq, tokens_renderLine v hne, ← List.map_take, List.take_of_length_le (by omega)]
    apply map_atoi_printInt
    intro x hx
    have := hrange x hx
    unfold INT_MIN INT_MAX
    omega
  have hany : v.any outOfRange = false := by
    rw [List.any_eq_false]
    intro x hx
    have := hrange x hx
    simp [outOfRange]
    omega
  unfold decode
  rw [trim_of_clean _ (fun c hc => (renderLine_clean v c hc).1),
    c_str_of_clean _ (fun c hc => (renderLine_clean v c hc).2)]
  unfold decodeTokens
  rw [hparse]
  simp [hlen, hany]

theorem decode_renderLine_witness :
    decode (renderLine [1, 2, 3, 4, 5, 6, 7]) = .ok [1, 2, 3, 4, 5, 6, 7]
      ∧ decode "1,2,3,4,5,6,7".toList = .ok [1, 2, 3, 4, 5, 6, 7] :=
  decode_renderLine [1, 2, 3, 4, 5, 6, 7] (by decide) (by decide)

/-! ## C2: The count check -/

/-- Claim C2, as the code has it: a line with fewer than seven comma-separated
tokens (counted on the line as received or on the trimmed line) fails with
`WrongCount`, whatever the tokens contain, and `loop()` writes
`Error: Enter 7 integers.` and nothing else; a line with seven tokens or more
never fails with `WrongCount`, and what it decodes to are the conversions of
its first seven tokens, the tokens behind them not being read.  So `"1,2,3"`
fails with `WrongCount` and a line of eight in-range integers decodes to the
first seven. -/
theorem decode_wrongCount (line : List Char) :
    ((lineTokens line).length < 7 →
        decode line = .error .WrongCount
          ∧ ∀ (t0 t1 t2 : Nat) (Invoke : (Nat → F32) → TfLiteStatus × F32) (data : Nat → F32),
              loop line t0 t1 t2 Invoke data = some ⟨"Error: Enter 7 integers.\r\n", data⟩)
      ∧ ((tokens line).length < 7 → decode line = .error .WrongCount)
      ∧ (7 ≤ (lineTokens line).length →
          decode line ≠ .error .WrongCount
            ∧ ∀ v, decode line = .ok v → v = ((lineTokens line).take 7).map atoi)
      ∧ decode "1,2,3".toList = .error .WrongCount
      ∧ decode "1,2,3,4,5,6,7,8".toList = .ok [1, 2, 3, 4, 5, 6, 7] := by
  have hfew : (lineTokens line).length < 7 → decode line = .error .WrongCount := by
    intro h
    rw [decode_eq, if_pos h]
  refine ⟨?_, ?_, ?_, by decide, by decide⟩
  · intro h
    exact ⟨hfew h, fun t0 t1 t2 Invoke data => loop_wrongCount line t0 t1 t2 Invoke data (hfew h)⟩
  · intro h
    exact hfew (lt_of_le_of_lt (lineTokens_length_le line) h)
  · intro h
    rw [decode_eq, if_neg (by omega)]
    constructor
    · split <;> simp
    · intro v hv
      split at hv
      · simp at hv
      · simpa using hv.symm

theorem decode_wrongCount_witness :
    decode "1,2,3".toList = .error .WrongCount
      ∧ decode "1,2,3,4,5,6,7,8".toList ≠ .error .WrongCount :=
  ⟨((decode_wrongCount "1,2,3".toList).1 (by decide)).1,
    ((decode_wrongCount "1,2,3,4,5,6,7,8".toList).2.2.1 (by decide)).1⟩

/-- Counterexample to claim C2 as stated: the line `"1,2,3,4,5,6,7,8"` has eight
comma-separated tokens, more than seven, and does not fail with `WrongCount`:
it is accepted as `[1, 2, 3, 4, 5, 6, 7]`. -/
theorem eight_tokens_accepted :
    (tokens "1,2,3,4,5,6,7,8".toList).length = 8
      ∧ (lineTokens "1,2,3,4,5,6,7,8".toList).length = 8
      ∧ decode "1,2,3,4,5,6,7,8".toList = .ok [1, 2, 3, 4, 5, 6, 7]
      ∧ decode "1,2,3,4,5,6,7,8".toList ≠ .error .WrongCount := by
  decide

/-! ## C3: The range check -/

/-- Claim C3, as the code has it: a line with at least seven tokens, one of whose
first seven tokens converts to an integer outside `[-128, 127]`, fails with
`OutOfRange`, and `loop()` writes the progress line and then
`Error: Input values must be in the range [-128, 127].`; in particular
`"200,0,0,0,0,0,0"` fails with `OutOfRange`. -/
theorem decode_outOfRange (line : List Char) (hcount : 7 ≤ (lineTokens line).length)
    (hbad : ∃ t ∈ (lineTokens line).take 7, atoi t < -128 ∨ 127 < atoi t) :
    decode line = .error .OutOfRange
      ∧ (∀ (t0 t1 t2 : Nat) (Invoke : (Nat → F32) → TfLiteStatus × F32) (data : Nat → F32),
          (loop line t0 t1 t2 Invoke data).map (fun o => o.serial)
            = some
              "Processing...\r\nError: Input values must be in the range [-128, 127].\r\n")
      ∧ decode "200,0,0,0,0,0,0".toList = .error .OutOfRange := by
  have hdec : decode line = .error .OutOfRange := by
    rw [decode_eq, if_neg (by omega), if_pos]
    rw [List.any_eq_true]
    obtain ⟨t, ht, hr⟩ := hbad
    refine ⟨atoi t, List.mem_map.2 ⟨t, ht, rfl⟩, ?_⟩
    simpa [outOfRange] using hr
  refine ⟨hdec, ?_, by decide⟩
  intro t0 t1 t2 Invoke data
  obtain ⟨data1, hd⟩ := loop_outOfRange line t0 t1 t2 Invoke data hdec
  rw [hd]
  rfl

theorem decode_outOfRange_witness :
    decode "0,0,0,0,0,0,-129".toList = .error .OutOfRange :=
  (decode_outOfRange "0,0,0,0,0,0,-129".toList (by decide)
    ⟨"-129".toList, by decide, by decide⟩).1

/-- Counterexample to claim C3 as stated: the line `"200,0,0"` contains the integer
`200`, outside `[-128, 127]`, and fails with `WrongCount`, not `OutOfRange`; the
line `"0,0,0,0,0,0,0,200"` contains it too and is accepted. -/
theorem out_of_range_not_reported :
    ("200".toList ∈ lineTokens "200,0,0".toList ∧ atoi "200".toList = 200
        ∧ decode "200,0,0".toList = .error .WrongCount)
      ∧ ("200".toList ∈ lineTokens "0,0,0,0,0,0,0,200".toList
        ∧ decode "0,0,0,0,0,0,0,200".toList = .ok [0, 0, 0, 0, 0, 0, 0]) := by
  decide

/-! ## C4: The output conversion truncates -/

/-- Claim C4, as the code has it: for an engine output `y` the reported quantized
output is `(y / output_scale) + output_zero_point`, computed in single precision
with `output_scale` the `float` of `0.017527734860777855` and
`output_zero_point = 31` (the quotient and the sum each within half a unit in
the last place of the exact result), with its fractional part discarded
(truncated toward zero, not rounded) by the conversion to `int8_t`, and it lies
in `[-128, 127]`.
The conversion is defined whenever that sum lies strictly between `-129` and
`128`.  For `y = 0.5` the reported value is `59`. -/
theorem quantized_output_truncates (y : F32) (q : Int) (h : quantized_output y = some q) :
    (∃ v d s : Float32, y = some v ∧ fdiv v output_scale = some d
        ∧ fadd d (Float32.ofInt output_zero_point) = some s
        ∧ |d.toRat - v.toRat / output_scale.toRat| ≤ halfUlp (v.toRat / output_scale.toRat)
        ∧ |s.toRat - (d.toRat + (output_zero_point : ℚ))|
            ≤ halfUlp (d.toRat + (output_zero_point : ℚ))
        ∧ -128 ≤ q ∧ q ≤ 127
        ∧ |(q : ℚ)| ≤ |s.toRat| ∧ |s.toRat| < |(q : ℚ)| + 1 ∧ 0 ≤ (q : ℚ) * s.toRat)
      ∧ (∀ s : Float32, scaled_output y = some s → -129 < s.toRat → s.toRat < 128 →
          ∃ q', quantized_output y = some q')
      ∧ output_zero_point = 31
      ∧ output_scale = floatLiteral 17527734860777855 (10 ^ 18)
      ∧ output_scale.toRat = 9410131 / 2 ^ 29
      ∧ quantized_output (some (floatLiteral 1 2)) = some 59 := by
  refine ⟨?_, ?_, rfl, rfl, ?_, by decide!⟩
  · cases y with
    | none =>
      have e : quantized_output none = none := rfl
      rw [e] at h
      exact Option.noConfusion h
    | some v =>
      unfold quantized_output scaled_output at h
      rw [Option.some_bind] at h
      cases hd : fdiv v output_scale with
      | none =>
        rw [hd, Option.none_bind, Option.none_bind] at h
        exact Option.noConfusion h
      | some d =>
        rw [hd, Option.some_bind] at h
        cases hs : fadd d (Float32.ofInt output_zero_point) with
        | none =>
          rw [hs, Option.none_bind] at h
          exact Option.noConfusion h
        | some s =>
          rw [hs, Option.some_bind] at h
          have hadd := fadd_spec _ _ _ hs
          rw [ofInt_exact _ (by decide)] at hadd
          exact ⟨v, d, s, rfl, hd, hs, (fdiv_spec _ _ _ hd).2, hadd, toInt8_spec s q h⟩
  · intro s hs hlo hhi
    obtain ⟨q', hq'⟩ := toInt8_defined s hlo hhi
    refine ⟨q', ?_⟩
    unfold quantized_output
    rw [hs, Option.some_bind, hq']
  · rw [output_scale_units, toRat_mk_mul _ _ (by decide)]
    norm_num

theorem quantized_output_truncates_witness :
    ∃ v d s : Float32, some (floatLiteral 1 2) = some v ∧ fdiv v output_scale = some d
      ∧ fadd d (Float32.ofInt output_zero_point) = some s
      ∧ |d.toRat - v.toRat / output_scale.toRat| ≤ halfUlp (v.toRat / output_scale.toRat)
      ∧ |s.toRat - (d.toRat + (output_zero_point : ℚ))|
          ≤ halfUlp (d.toRat + (output_zero_point : ℚ))
      ∧ -128 ≤ (59 : Int) ∧ (59 : Int) ≤ 127
      ∧ |((59 : Int) : ℚ)| ≤ |s.toRat| ∧ |s.toRat| < |((59 : Int) : ℚ)| + 1
      ∧ 0 ≤ ((59 : Int) : ℚ) * s.toRat :=
  (quantized_output_truncates (some (floatLiteral 1 2)) 59 (by decide!)).1

/-- Counterexample to claim C4 as stated: for the engine output `y = 0.5` the code
reports `59`, while `round(0.5 / 0.017527734860777855 + 31)` is `60`, whether the
sum is taken exactly or as the single-precision value the code computes
(`15604441 / 2 ^ 18`, about `59.526`). -/
theorem output_truncated_not_rounded :
    (floatLiteral 1 2).toRat = 1 / 2
      ∧ quantized_output (some (floatLiteral 1 2)) = some 59
      ∧ (scaled_output (some (floatLiteral 1 2))).map (fun s => round s.toRat) = some 60
      ∧ round ((1 / 2 : ℚ) / (17527734860777855 / 10 ^ 18) + 31) = 60 := by
  refine ⟨?_, by decide!, ?_, ?_⟩
  · have h : floatLiteral 1 2 = ⟨1 * 2 ^ 148⟩ := by decide!
    rw [h, toRat_mk_mul _ _ (by decide)]
    norm_num
  · rw [scaled_output_half, Option.map_some', toRat_mk_mul _ _ (by decide), round_eq,
      Option.some.injEq, Int.floor_eq_iff]
    constructor <;> norm_num
  · rw [round_eq, Int.floor_eq_iff]
    constructor <;> norm_num

/-! ## C5: The loaded input tensor -/

/-- Claim C5: for a line that decodes to `v`, the engine runs on the tensor whose
slot `i < 7` holds `(v[i] - input_zero_point) * input_scale`, computed in single
precision (a finite number within half a unit in the last place of the exact
product), slot `i` taking element `i` of the input, with
`input_zero_point = -1` and `input_scale` the `float` of the literal
`0.007831485942006111` (which is `4204497 / 2 ^ 29`, within `10 ^ (-18)` of the
literal); that tensor is what the request leaves behind.  For
`[0, 0, 0, 0, 0, 0, 0]` every slot holds `input_scale`. -/
theorem input_tensor_scaled (line : List Char) (v : List Int) (t0 t1 t2 : Nat)
    (Invoke : (Nat → F32) → TfLiteStatus × F32) (data : Nat → F32)
    (hv : decode line = .ok v) :
    (∃ T : Nat → F32,
        loop line t0 t1 t2 Invoke data = report t0 t1 t2 (Invoke T) T
          ∧ (∀ i, i < 7 →
              T i = fmul (Float32.ofInt (v.getD i 0 - input_zero_point)) input_scale)
          ∧ (∀ i, i < 7 → ∃ r : Float32, T i = some r
              ∧ |r.toRat - ((v.getD i 0 : ℚ) - (input_zero_point : ℚ)) * input_scale.toRat|
                  ≤ halfUlp (((v.getD i 0 : ℚ) - (input_zero_point : ℚ)) * input_scale.toRat))
          ∧ (∀ i, 7 ≤ i → T i = data i)
          ∧ ∀ out, loop line t0 t1 t2 Invoke data = some out → out.data = T)
      ∧ input_zero_point = -1
      ∧ input_scale = floatLiteral 7831485942006111 (10 ^ 18)
      ∧ input_scale.toRat = 4204497 / 2 ^ 29
      ∧ |input_scale.toRat - 7831485942006111 / 10 ^ 18| < 1 / 10 ^ 18
      ∧ decode "0,0,0,0,0,0,0".toList = .ok [0, 0, 0, 0, 0, 0, 0]
      ∧ ∀ i, i < 7 → loaded [0, 0, 0, 0, 0, 0, 0] data i = some input_scale := by
  have hrat : input_scale.toRat = 4204497 / 2 ^ 29 := by
    rw [input_scale_units, toRat_mk_mul _ _ (by decide)]
    norm_num
  have hslot : ∀ i, i < 7 →
      loaded v data i = fmul (Float32.ofInt (v.getD i 0 - input_zero_point)) input_scale := by
    intro i hi
    unfold loaded
    rw [if_pos hi]
    rfl
  obtain ⟨-, hlen, hany⟩ := (decode_ok_iff line v).1 hv
  rw [List.any_eq_false] at hany
  refine ⟨⟨loaded v data, loop_ok line v t0 t1 t2 Invoke data hv, hslot, ?_, ?_, ?_⟩, rfl, rfl,
    hrat, ?_, by decide, ?_⟩
  · intro i hi
    have hi' : i < v.length := by omega
    have hr := hany _ (List.getElem_mem hi')
    rw [← List.getD_eq_getElem _ 0 hi'] at hr
    have hlo : -128 ≤ v.getD i 0 := by
      have : ¬ (outOfRange (v.getD i 0) = true) := hr
      unfold outOfRange at this
      simp only [Bool.or_eq_true, decide_eq_true_eq, not_or, not_lt] at this
      exact this.1
    have hhi : v.getD i 0 ≤ 127 := by
      have : ¬ (outOfRange (v.getD i 0) = true) := hr
      unfold outOfRange at this
      simp only [Bool.or_eq_true, decide_eq_true_eq, not_or, not_lt, gt_iff_lt] at this
      exact this.2
    obtain ⟨r, hr'⟩ := scaled_input_some (v.getD i 0) hlo hhi
    have hmul : fmul (Float32.ofInt (v.getD i 0 - input_zero_point)) input_scale = some r := hr'
    have hspec := fmul_spec _ _ _ hmul
    have hsmall : (v.getD i 0 - input_zero_point).natAbs < 2 ^ 24 := by
      unfold input_zero_point
      omega
    rw [ofInt_exact _ hsmall, Int.cast_sub] at hspec
    exact ⟨r, (hslot i hi).trans hmul, hspec⟩
  · intro i hi
    unfold loaded
    rw [if_neg (Nat.not_lt.2 hi)]
  · intro out hout
    rw [loop_ok line v t0 t1 t2 Invoke data hv] at hout
    exact report_data _ _ _ _ _ _ hout
  · rw [hrat, abs_lt]
    constructor <;> norm_num
  · intro i hi
    have hz : scaled_input 0 = some input_scale := by decide!
    unfold loaded
    rw [if_pos hi]
    interval_cases i <;> exact hz

theorem input_tensor_scaled_witness :
    loaded [0, 0, 0, 0, 0, 0, 0] (fun _ => none) 0 = some input_scale
      ∧ loaded [0, 0, 0, 0, 0, 0, 0] (fun _ => none) 6 = some input_scale :=
  ⟨(input_tensor_scaled "0,0,0,0,0,0,0".toList [0, 0, 0, 0, 0, 0, 0] 0 0 0
      (fun _ => (.kTfLiteError, none)) (fun _ => none) (by decide)).2.2.2.2.2.2 0 (by decide),
    (input_tensor_scaled "0,0,0,0,0,0,0".toList [0, 0, 0, 0, 0, 0, 0] 0 0 0
      (fun _ => (.kTfLiteError, none)) (fun _ => none) (by decide)).2.2.2.2.2.2 6 (by decide)⟩

/-! ## C6: The text of a failed request -/

/-- Claim C6, as the code has it: a request that fails writes one error message
and neither a `Quantized Output` line nor a timing line.  With a wrong token
count the message is all that is written; with a value out of range, or with
the engine reporting failure, the progress line `Processing...` has been
written before it. -/
theorem failed_request_output (line : List Char) (t0 t1 t2 : Nat)
    (Invoke : (Nat → F32) → TfLiteStatus × F32) (data : Nat → F32) :
    (decode line = .error .WrongCount →
        (loop line t0 t1 t2 Invoke data).map (fun o => o.serial)
          = some "Error: Enter 7 integers.\r\n")
      ∧ (decode line = .error .OutOfRange →
        (loop line t0 t1 t2 Invoke data).map (fun o => o.serial)
          = some "Processing...\r\nError: Input values must be in the range [-128, 127].\r\n")
      ∧ (∀ v, decode line = .ok v → (Invoke (loaded v data)).1 = .kTfLiteError →
        (loop line t0 t1 t2 Invoke data).map (fun o => o.serial)
          = some "Processing...\r\nModel inference failed.\r\n") := by
  refine ⟨?_, ?_, ?_⟩
  · intro h
    rw [loop_wrongCount line t0 t1 t2 Invoke data h]
    rfl
  · intro h
    obtain ⟨data1, hd⟩ := loop_outOfRange line t0 t1 t2 Invoke data h
    rw [hd]
    rfl
  · intro v hv hst
    rw [loop_ok line v t0 t1 t2 Invoke data hv]
    cases hr : Invoke (loaded v data) with
    | mk st y =>
      rw [hr] at hst
      simp only at hst
      subst hst
      rfl

theorem failed_request_output_witness :
    (loop "1,2,3".toList 0 0 0 (fun _ => (.kTfLiteOk, none)) (fun _ => none)).map
        (fun o => o.serial) = some "Error: Enter 7 integers.\r\n"
      ∧ (loop "200,0,0,0,0,0,0".toList 0 0 0 (fun _ => (.kTfLiteOk, none)) (fun _ => none)).map
        (fun o => o.serial)
          = some "Processing...\r\nError: Input values must be in the range [-128, 127].\r\n"
      ∧ (loop "1,2,3,4,5,6,7".toList 0 0 0 (fun _ => (.kTfLiteError, none)) (fun _ => none)).map
        (fun o => o.serial) = some "Processing...\r\nModel inference failed.\r\n" :=
  ⟨(failed_request_output "1,2,3".toList 0 0 0 _ _).1 (by decide),
    (failed_request_output "200,0,0,0,0,0,0".toList 0 0 0 _ _).2.1 (by decide),
    (failed_request_output "1,2,3,4,5,6,7".toList 0 0 0 _ _).2.2 [1, 2, 3, 4, 5, 6, 7]
      (by decide) rfl⟩

/-- Counterexample to claim C6 as stated: the request `"200,0,0,0,0,0,0"` fails with
a value out of range, and the text written is not the error message alone: the
progress line `Processing...` precedes it. -/
theorem progress_line_before_error :
    decode "200,0,0,0,0,0,0".toList = .error .OutOfRange
      ∧ (loop "200,0,0,0,0,0,0".toList 0 0 0 (fun _ => (.kTfLiteOk, none)) (fun _ => none)).map
        (fun o => o.serial)
          = some "Processing...\r\nError: Input values must be in the range [-128, 127].\r\n"
      ∧ (loop "200,0,0,0,0,0,0".toList 0 0 0 (fun _ => (.kTfLiteOk, none)) (fun _ => none)).map
        (fun o => o.serial)
          ≠ some "Error: Input values must be in the range [-128, 127].\r\n" := by
  decide!

/-! ## C7: The conversion of tokens -/

/-- Claim C7, as the code has it: every token read is converted by `atoi` and no
token raises an error.  A token that has, after optional white space and one
optional sign, a run of one decimal digit or more is converted to the number
that sign and run denote in base 10, whatever follows the digits, clamped to
the range of `int`, `[-2147483648, 2147483647]`; so `"12abc"` and `" 12abc"`
give `12`, `"+7x"` and `"007"` give `7`, and `"99999999999abc"` gives
`2147483647`.  A token without a digit where the number should start, such as
`"abc"`, gives `0`.  Every token is of one of these two kinds. -/
theorem atoi_tokens (line : List Char) :
    parseValues (c_str (trim line)) = ((lineTokens line).take 7).map atoi
      ∧ (∀ ws sign ds tail : List Char, (∀ c ∈ ws, isspace c = true) →
          (sign = [] ∨ sign = ['-'] ∨ sign = ['+']) → ds ≠ [] →
          (∀ c ∈ ds, c.isDigit = true) → (∀ c, tail.head? = some c → c.isDigit = false) →
          atoi (ws ++ (sign ++ (ds ++ tail)))
            = if sign = ['-'] then max INT_MIN (-(decimalValue ds : Int))
              else min INT_MAX (decimalValue ds : Int))
      ∧ (∀ t : List Char, startsWithNumber t = false → atoi t = 0)
      ∧ (∀ t : List Char, startsWithNumber t = false
          ∨ ∃ ws sign ds tail : List Char, t = ws ++ (sign ++ (ds ++ tail))
              ∧ (∀ c ∈ ws, isspace c = true)
              ∧ (sign = [] ∨ sign = ['-'] ∨ sign = ['+'])
              ∧ ds ≠ [] ∧ (∀ c ∈ ds, c.isDigit = true)
              ∧ (∀ c, tail.head? = some c → c.isDigit = false))
      ∧ INT_MIN = -2147483648 ∧ INT_MAX = 2147483647
      ∧ atoi "abc".toList = 0
      ∧ atoi "12abc".toList = 12
      ∧ atoi " 12abc".toList = 12
      ∧ atoi "+7x".toList = 7
      ∧ atoi "007".toList = 7
      ∧ atoi "-0".toList = 0
      ∧ atoi "99999999999abc".toList = 2147483647
      ∧ atoi "-99999999999".toList = -2147483648
      ∧ decode "abc,12abc,x,-,+7,007, 5".toList = .ok [0, 12, 0, 0, 7, 7, 5] :=
  ⟨parseValues_line line, atoi_number, atoi_of_no_digit, token_shape, rfl, rfl,
    by decide, by decide, by decide, by decide, by decide, by decide, by decide, by decide,
    by decide⟩

theorem atoi_tokens_witness :
    atoi (" \t".toList ++ (['-'] ++ ("007".toList ++ "x5".toList))) = -7
      ∧ atoi ([] ++ ([] ++ ("99999999999".toList ++ "abc".toList))) = 2147483647
      ∧ atoi "abc".toList = 0 :=
  ⟨((atoi_tokens []).2.1 " \t".toList ['-'] "007".toList "x5".toList (by decide)
      (by decide) (by decide) (by decide) (by decide)).trans (by decide),
    ((atoi_tokens []).2.1 [] [] "99999999999".toList "abc".toList (by decide)
      (by decide) (by decide) (by decide) (by decide)).trans (by decide),
    (atoi_tokens []).2.2.1 "abc".toList (by decide)⟩

/-- Counterexample to claim C7 as stated: the token `"12abc"` is not a well-formed
base-10 integer, and it is converted to `12`, not to `0`. -/
theorem trailing_garbage_not_zero :
    isWellFormedInt "12abc".toList = false
      ∧ atoi "12abc".toList = 12
      ∧ atoi "12abc".toList ≠ 0
      ∧ decode "12abc,0,0,0,0,0,0".toList = .ok [12, 0, 0, 0, 0, 0, 0] := by
  decide

/-! ## C8: The reported times -/

/-- Claim C8: a successful request reports, in its timing line, the differences
`t1 - t0` and `t2 - t1` of the microsecond readings taken in call order, each
computed on `unsigned long`, that is modulo `2 ^ 32`; each reported value is
non-negative, and it is the exact difference when the clock has not wrapped
between the two readings (`before ≤ after`).  The printed digits read back as
the value. -/
theorem timing_reported (line : List Char) (v : List Int) (t0 t1 t2 : Nat)
    (Invoke : (Nat → F32) → TfLiteStatus × F32) (data : Nat → F32) (y : F32) (q : Int)
    (hv : decode line = .ok v) (hinv : Invoke (loaded v data) = (.kTfLiteOk, y))
    (hq : quantized_output y = some q) (h1 : t1 < 2 ^ 32) (h2 : t2 < 2 ^ 32) :
    (loop line t0 t1 t2 Invoke data).map (fun o => o.serial)
        = some (println "Processing..." ++ "Quantized Output: "
            ++ println (String.mk (printInt q))
            ++ ("Printing time = " ++ String.mk (printNumber (elapsed t1 t0))
              ++ " us.  Inference time = " ++ String.mk (printNumber (elapsed t2 t1))
              ++ println " us."))
      ∧ ((elapsed t1 t0 : Int) = ((t1 : Int) - (t0 : Int)) % 2 ^ 32
          ∧ (0 : Int) ≤ (elapsed t1 t0 : Int) ∧ elapsed t1 t0 < 2 ^ 32
          ∧ (t0 ≤ t1 → elapsed t1 t0 = t1 - t0)
          ∧ digitRun (printNumber (elapsed t1 t0)) 0 = elapsed t1 t0)
      ∧ ((elapsed t2 t1 : Int) = ((t2 : Int) - (t1 : Int)) % 2 ^ 32
          ∧ (0 : Int) ≤ (elapsed t2 t1 : Int) ∧ elapsed t2 t1 < 2 ^ 32
          ∧ (t1 ≤ t2 → elapsed t2 t1 = t2 - t1)
          ∧ digitRun (printNumber (elapsed t2 t1)) 0 = elapsed t2 t1) := by
  have hlt : ∀ a b : Nat, elapsed a b < 2 ^ 32 := by
    intro a b
    have hc := elapsed_cast a b
    have := Int.emod_lt_of_pos ((a : Int) - (b : Int)) (show (0 : Int) < 2 ^ 32 by norm_num)
    have h3 : ((2 : Int) ^ 32) = 4294967296 := by norm_num
    have h4 : (2 : Nat) ^ 32 = 4294967296 := by norm_num
    omega
  have hread : ∀ n : Nat, digitRun (printNumber n) 0 = n := by
    intro n
    obtain ⟨ds, hds, -, -, hval⟩ := printNumber_spec n
    rw [hds, hval]
  refine ⟨?_, ⟨elapsed_cast t1 t0, Int.natCast_nonneg _, hlt t1 t0,
    elapsed_exact t1 t0 h1, hread _⟩, ⟨elapsed_cast t2 t1, Int.natCast_nonneg _, hlt t2 t1,
    elapsed_exact t2 t1 h2, hread _⟩⟩
  rw [loop_ok line v t0 t1 t2 Invoke data hv, hinv]
  simp only [report, hq, Option.map_some', timingLine]

theorem timing_reported_witness :
    (loop "1,2,3,4,5,6,7".toList 100 250 4294967295
        (fun _ => (.kTfLiteOk, some (floatLiteral 1 2))) (fun _ => none)).map (fun o => o.serial)
      = some
        "Processing...\r\nQuantized Output: 59\r\nPrinting time = 150 us.  Inference time = 4294967045 us.\r\n" :=
  (timing_reported "1,2,3,4,5,6,7".toList [1, 2, 3, 4, 5, 6, 7] 100 250 4294967295
    (fun _ => (.kTfLiteOk, some (floatLiteral 1 2))) (fun _ => none) (some (floatLiteral 1 2)) 59
    (by decide) rfl (by decide!) (by norm_num) (by norm_num)).1.trans (by decide!)

/-! ## C9: The range of the scaled inputs -/

/-- Claim C9 at the input `127`: the line `"127,0,0,0,0,0,0"` is accepted and the
value written to slot `0` is `(127 + 1) * input_scale = 4204497 / 4194304`,
about `1.0024`, which is larger than `1`. -/
theorem scaled_input_at_127 :
    decode "127,0,0,0,0,0,0".toList = .ok [127, 0, 0, 0, 0, 0, 0]
      ∧ loaded [127, 0, 0, 0, 0, 0, 0] (fun _ => none) 0 = scaled_input 127
      ∧ (scaled_input 127).map Float32.toRat = some (4204497 / 4194304)
      ∧ (1 : ℚ) < 4204497 / 4194304 := by
  refine ⟨by decide, ?_, ?_, by norm_num⟩
  · unfold loaded
    rw [if_pos (by decide)]
    rfl
  rw [scaled_input_127, Option.map_some', toRat_mk_mul _ _ (by decide)]
  norm_num

/-! ## C10: Empty fields -/

/-- Claim C10, as the code has it: the tokeniser never returns an empty token, so
the string handed to it decodes like the same string with its empty fields
removed; a line decodes like its trimmed C string with the empty fields
removed, and a line without white space and NUL decodes like the line itself
with its empty fields removed.  So `"1,,2,3,4,5,6,7"` and `",1,2,3,4,5,6,7,"`
are both accepted as `[1, 2, 3, 4, 5, 6, 7]`. -/
theorem decode_removeEmptyFields (line : List Char) :
    (∀ p t, (strtok p).1 = some t → t ≠ [])
      ∧ decodeTokens (removeEmptyFields line) = decodeTokens line
      ∧ decode line = decodeTokens (removeEmptyFields (c_str (trim line)))
      ∧ ((∀ c ∈ line, isspace c = false ∧ (c.toNat != 0) = true) →
          decode (removeEmptyFields line) = decode line)
      ∧ decode "1,,2,3,4,5,6,7".toList = .ok [1, 2, 3, 4, 5, 6, 7]
      ∧ decode ",1,2,3,4,5,6,7,".toList = .ok [1, 2, 3, 4, 5, 6, 7] := by
  refine ⟨strtok_ne_nil, decodeTokens_removeEmptyFields line, ?_, ?_, by decide, by decide⟩
  · rw [decodeTokens_removeEmptyFields]
    rfl
  · intro h
    have h' := removeEmptyFields_clean line h
    unfold decode
    rw [trim_of_clean _ (fun c hc => (h c hc).1), c_str_of_clean _ (fun c hc => (h c hc).2),
      trim_of_clean _ (fun c hc => (h' c hc).1), c_str_of_clean _ (fun c hc => (h' c hc).2)]
    exact decodeTokens_removeEmptyFields line

theorem decode_removeEmptyFields_witness :
    decode (removeEmptyFields "1,,2,3,4,5,6,7".toList) = decode "1,,2,3,4,5,6,7".toList :=
  (decode_removeEmptyFields "1,,2,3,4,5,6,7".toList).2.2.2.1 (by decide)

/-- Counterexample to claim C10 as stated: the line `", ,1,2,3,4,5,6"` is accepted
as `[0, 1, 2, 3, 4, 5, 6]`, the field `" "` counting as a token; with its empty
first field removed the line is `" ,1,2,3,4,5,6"`, which `trim()` leaves with six
tokens, and it fails with `WrongCount`. -/
theorem removing_empty_field_changes_result :
    removeEmptyFields ", ,1,2,3,4,5,6".toList = " ,1,2,3,4,5,6".toList
      ∧ decode ", ,1,2,3,4,5,6".toList = .ok [0, 1, 2, 3, 4, 5, 6]
      ∧ decode (removeEmptyFields ", ,1,2,3,4,5,6".toList) = .error .WrongCount := by
  decide

end VoluSign
